import Mathlib

/-!
Shallow embedding of the HotCold-btree repository (src/btree.c, src/hctree.c)
and verification of its specification claims.

Modelling conventions:
* `BTKey` (int64_t) is modelled as `Int`; the C driver never overflows 64 bits
  in the scenarios the claims quantify over, so machine wrap-around is not
  modelled.
* `BTPayload` (void*, with NULL as the absent sentinel) is modelled as
  `Option α`: `none` is NULL.
* A `BTreeNode`'s arrays `keys[0..nkeys)`, `values[0..nkeys)` and
  `children[0..nkeys]` are modelled as lists holding exactly the visible
  entries (the C arrays have capacity `2t-1` resp. `2t`; slots at index
  `≥ nkeys` resp. `> nkeys` are unobservable and are not represented).
* `double` fields (scores, thresholds, fractions) are modelled as `ℚ`; the
  concrete parameters used in counterexamples are exactly representable in
  binary floating point, and the claims are stated over the update formulas
  themselves.
* Statistics counters (C `long`) are modelled as `Nat`; overflow is not
  modelled.
* Reading a child slot that is out of range of the children array is
  undefined behaviour in C; in the model those reads take a harmless default
  and are unreachable for well-formed trees.
-/

namespace HotCold

abbrev BTKey := Int

/-- A B-tree node: `bt_new_node` / `struct BTreeNode` from src/btree.c.
`keys`, `values`, `children` hold the visible prefixes of the C arrays. -/
inductive BTreeNode (α : Type) where
  | mk (keys : List BTKey) (values : List (Option α)) (children : List (BTreeNode α))
       (leaf : Bool)

variable {α : Type}

def BTreeNode.keys : BTreeNode α → List BTKey
  | .mk ks _ _ _ => ks

def BTreeNode.values : BTreeNode α → List (Option α)
  | .mk _ vs _ _ => vs

def BTreeNode.children : BTreeNode α → List (BTreeNode α)
  | .mk _ _ cs _ => cs

def BTreeNode.leaf : BTreeNode α → Bool
  | .mk _ _ _ lf => lf

/-- `node->nkeys`. -/
def BTreeNode.nkeys (n : BTreeNode α) : Nat := n.keys.length

theorem BTreeNode.keys_mk (ks : List BTKey) (vs : List (Option α))
    (cs : List (BTreeNode α)) (lf : Bool) : (BTreeNode.mk ks vs cs lf).keys = ks := rfl

theorem BTreeNode.values_mk (ks : List BTKey) (vs : List (Option α))
    (cs : List (BTreeNode α)) (lf : Bool) : (BTreeNode.mk ks vs cs lf).values = vs := rfl

theorem BTreeNode.children_mk (ks : List BTKey) (vs : List (Option α))
    (cs : List (BTreeNode α)) (lf : Bool) : (BTreeNode.mk ks vs cs lf).children = cs := rfl

theorem BTreeNode.leaf_mk (ks : List BTKey) (vs : List (Option α))
    (cs : List (BTreeNode α)) (lf : Bool) : (BTreeNode.mk ks vs cs lf).leaf = lf := rfl

/-- The empty leaf node produced by `bt_new_node(t, 1)` at tree creation. -/
def emptyLeaf : BTreeNode α := .mk [] [] [] true

/-- `struct BTree`: root plus minimum degree `t`. -/
structure BTree (α : Type) where
  t : Nat
  root : BTreeNode α

/-- `bt_create(t)`: a tree whose root is an empty leaf. -/
def bt_create (t : Nat) : BTree α := ⟨t, emptyLeaf⟩

/-- The scan loop of `bt_search_node`:
`i = 0; while (i < nkeys && k > keys[i]) i++;` — the final value of `i`. -/
def lowerIdx (k : BTKey) : List BTKey → Nat
  | [] => 0
  | x :: xs => if k > x then lowerIdx k xs + 1 else 0

/-- The number of loop iterations of
`i = nkeys-1; while (i >= 0 && k < keys[i]) i--;`
(both in `bt_insert_nonfull`'s leaf shift loop and its descend loop):
the length of the maximal suffix of `ks` scanned from the right whose
entries all satisfy `k < key`. -/
def suffLen (k : BTKey) (ks : List BTKey) : Nat :=
  (ks.reverse.takeWhile fun x => k < x).length

/-- The final `i+1` of that loop (used as child index after `i++`, and as the
insertion slot in the leaf case). -/
def descendIdx (k : BTKey) (ks : List BTKey) : Nat := ks.length - suffLen k ks

/-- `bt_search_node(node, k, stats, t)`: returns the payload (NULL = `none`)
together with the number of `stats->node_visits` increments performed. -/
def bt_search_node (k : BTKey) : BTreeNode α → Option α × Nat
  | .mk ks vs cs leaf =>
    let i := lowerIdx k ks
    if i < ks.length ∧ ks.getD i 0 = k then (vs.getD i none, 1)
    else if leaf then (none, 1)
    else
      match h : cs.get? i with
      | some c =>
        let r := bt_search_node k c
        (r.1, r.2 + 1)
      | none => (none, 1)
decreasing_by
  simp_wf
  have := List.sizeOf_lt_of_mem (List.get?_mem h)
  omega

/-- `bt_search(tree, k, stats)`. -/
def bt_search (tr : BTree α) (k : BTKey) : Option α × Nat :=
  bt_search_node k tr.root

/-- The lower half `y` keeps after `bt_split_child`: first `t-1` keys and
values, first `t` children (`y->nkeys = t-1`; a leaf keeps no children). -/
def splitY (t : Nat) : BTreeNode α → BTreeNode α
  | .mk yk yv yc ylf => .mk (yk.take (t-1)) (yv.take (t-1))
      (if ylf then [] else yc.take t) ylf

/-- The freshly allocated right sibling `z` of `bt_split_child`: keys and
values at indices `t..2t-2` of `y`, children at indices `t..2t-1`. -/
def splitZ (t : Nat) : BTreeNode α → BTreeNode α
  | .mk yk yv yc ylf => .mk ((yk.drop t).take (t-1)) ((yv.drop t).take (t-1))
      (if ylf then [] else (yc.drop t).take t) ylf

/-- `bt_split_child(tree, x, i)`: splits child `i` of `x`; the median entry of
`y = x->children[i]` moves up into `x` at index `i` and the new right sibling
`z` is placed at `x->children[i+1]`. -/
def bt_split_child (t : Nat) (x : BTreeNode α) (i : Nat) : BTreeNode α :=
  match x with
  | .mk xk xv xc xlf =>
    let y := xc.getD i emptyLeaf
    let cs1 := xc.set i (splitY t y)
    .mk (xk.take i ++ y.keys.getD (t-1) 0 :: xk.drop i)
        (xv.take i ++ y.values.getD (t-1) none :: xv.drop i)
        (cs1.take (i+1) ++ splitZ t y :: cs1.drop (i+1))
        xlf

/-- The leaf case of `bt_insert_nonfull`: the while loop shifts the maximal
suffix of entries with `k < key` one slot to the right, then either
overwrites the payload next to the opened slot when its key equals `k`
(leaving `nkeys` unchanged, so the visible window keeps the shifted copies
and drops the last original entry), or writes `(k, v)` into the opened slot
and increments `nkeys`. -/
def bt_leaf_insert (k : BTKey) (v : Option α) (ks : List BTKey)
    (vs : List (Option α)) : List BTKey × List (Option α) :=
  let fl := descendIdx k ks
  let frontK := ks.take fl
  let backK := ks.drop fl
  let frontV := vs.take fl
  let backV := vs.drop fl
  if 0 < fl ∧ ks.getD (fl - 1) 0 = k then
    (frontK ++ backK.take 1 ++ backK.dropLast,
     frontV.set (fl - 1) v ++ backV.take 1 ++ backV.dropLast)
  else
    (frontK ++ k :: backK, frontV ++ v :: backV)

theorem sizeOf_list_take {β : Type} [SizeOf β] (n : Nat) (l : List β) :
    sizeOf (l.take n) ≤ sizeOf l := by
  induction l generalizing n with
  | nil => cases n <;> simp
  | cons a l ih =>
    cases n with
    | zero => simp [List.take]; omega
    | succ n => simp [List.take]; have := ih n; omega

theorem sizeOf_list_drop {β : Type} [SizeOf β] (n : Nat) (l : List β) :
    sizeOf (l.drop n) ≤ sizeOf l := by
  induction l generalizing n with
  | nil => cases n <;> simp
  | cons a l ih =>
    cases n with
    | zero => simp
    | succ n => simp [List.drop]; have := ih n; have : sizeOf a ≥ 0 := by positivity
                omega

theorem sizeOf_list_pos {β : Type} [SizeOf β] (l : List β) : 1 ≤ sizeOf l := by
  cases l
  · simp
  · simp
    omega

theorem sizeOf_splitY_le (t : Nat) (c : BTreeNode α) :
    sizeOf (splitY t c) ≤ sizeOf c := by
  cases c with
  | mk ks vs cs lf =>
    simp only [splitY]
    have h1 := sizeOf_list_take (t-1) ks
    have h2 := sizeOf_list_take (t-1) vs
    have h3 := sizeOf_list_take t cs
    have h4 := sizeOf_list_pos cs
    cases lf <;> simp <;> omega

theorem sizeOf_splitZ_le (t : Nat) (c : BTreeNode α) :
    sizeOf (splitZ t c) ≤ sizeOf c := by
  cases c with
  | mk ks vs cs lf =>
    simp only [splitZ]
    have h1 := (sizeOf_list_take (t-1) (ks.drop t)).trans (sizeOf_list_drop t ks)
    have h2 := (sizeOf_list_take (t-1) (vs.drop t)).trans (sizeOf_list_drop t vs)
    have h3 := (sizeOf_list_take t (cs.drop t)).trans (sizeOf_list_drop t cs)
    have h4 := sizeOf_list_pos cs
    cases lf <;> simp <;> omega

/-- `bt_insert_nonfull(tree, x, k, v)`. In the full-child case the recursive
call descends into `x->children[i]` after the split, which is the lower half
`splitY t c` when `k` is not greater than the promoted median and the new
sibling `splitZ t c` otherwise (see `bt_split_child_children_eq`). -/
def bt_insert_nonfull (t : Nat) (k : BTKey) (v : Option α) :
    BTreeNode α → BTreeNode α
  | .mk ks vs cs leaf =>
    if leaf then
      let r := bt_leaf_insert k v ks vs
      .mk r.1 r.2 cs leaf
    else
      let i := descendIdx k ks
      match h : cs.get? i with
      | none => .mk ks vs cs leaf
      | some c =>
        if c.nkeys = 2 * t - 1 then
          let m := bt_split_child t (.mk ks vs cs leaf) i
          if k > m.keys.getD i 0 then
            .mk m.keys m.values
              (m.children.set (i+1) (bt_insert_nonfull t k v (splitZ t c))) false
          else
            .mk m.keys m.values
              (m.children.set i (bt_insert_nonfull t k v (splitY t c))) false
        else
          .mk ks vs (cs.set i (bt_insert_nonfull t k v c)) leaf
decreasing_by
  · simp_wf
    have h1 := List.sizeOf_lt_of_mem (List.get?_mem h)
    have h2 := sizeOf_splitZ_le t c
    omega
  · simp_wf
    have h1 := List.sizeOf_lt_of_mem (List.get?_mem h)
    have h2 := sizeOf_splitY_le t c
    omega
  · simp_wf
    have h1 := List.sizeOf_lt_of_mem (List.get?_mem h)
    omega

/-- `bt_insert(tree, k, v)`: split a full root first, then insert non-full. -/
def bt_insert (tr : BTree α) (k : BTKey) (v : Option α) : BTree α :=
  let t := tr.t
  let r := tr.root
  if r.nkeys = 2 * t - 1 then
    let s : BTreeNode α := .mk [] [] [r] false
    ⟨t, bt_insert_nonfull t k v (bt_split_child t s 0)⟩
  else
    ⟨t, bt_insert_nonfull t k v r⟩

/-- `bt_count_keys_node`: number of keys stored in the subtree. -/
def bt_count_keys_node : BTreeNode α → Nat
  | .mk ks _ cs leaf =>
    ks.length + (if leaf then 0 else (cs.attach.map fun c => bt_count_keys_node c.1).sum)
decreasing_by
  simp_wf
  have := List.sizeOf_lt_of_mem c.2
  omega

/-- `bt_count_keys(tree)`. -/
def bt_count_keys (tr : BTree α) : Nat := bt_count_keys_node tr.root

/-- The number of nodes in a subtree: `bt_count_keys_node` recurses into
every node once, so this is the number of nodes it physically touches. -/
def btNodes : BTreeNode α → Nat
  | .mk _ _ cs leaf =>
    1 + (if leaf then 0 else (cs.attach.map fun c => btNodes c.1).sum)
decreasing_by
  simp_wf
  have := List.sizeOf_lt_of_mem c.2
  omega

theorem length_lt_sizeOf {β : Type} [SizeOf β] (l : List β) : l.length < sizeOf l := by
  induction l with
  | nil => simp
  | cons a l ih => simp; omega

mutual
/-- `bt_range_node(node, lo, hi, cb, arg, stats, t)`. The first state
component is the callback context (C's `*arg`), the `Nat` component counts
the `stats->node_visits` increments. -/
def bt_range_node (lo hi : BTKey) (cb : BTKey → Option α → σ → σ) :
    BTreeNode α → σ × Nat → σ × Nat
  | .mk ks vs cs leaf, s => bt_range_go lo hi cb leaf (ks.zip vs) cs (s.1, s.2 + 1)
termination_by n _ => (sizeOf n, 0)
decreasing_by
  simp_wf
  have h2 := length_lt_sizeOf vs
  omega

/-- The `for (i = 0; i < nkeys; i++)` loop of `bt_range_node`, processing the
remaining entries and children in lockstep; after the final entry the
rightmost child `children[nkeys]` is traversed when the node is internal.
Note that in the early-return branch (`keys[i] > hi`) the C code descends
into `children[i]` a second time, after already having descended into it
under the `lo <= keys[i]` test. A child slot missing from the children list
is undefined behaviour in C and is skipped here. -/
def bt_range_go (lo hi : BTKey) (cb : BTKey → Option α → σ → σ) (leaf : Bool) :
    List (BTKey × Option α) → List (BTreeNode α) → σ × Nat → σ × Nat
  | [], [], s => s
  | [], c :: _, s => if leaf then s else bt_range_node lo hi cb c s
  | e :: es, [], s =>
    let s2 := if lo ≤ e.1 ∧ e.1 ≤ hi then (cb e.1 e.2 s.1, s.2) else s
    if e.1 > hi then s2 else bt_range_go lo hi cb leaf es [] s2
  | e :: es, c :: cs, s =>
    let s1 := if ¬leaf ∧ lo ≤ e.1 then bt_range_node lo hi cb c s else s
    let s2 := if lo ≤ e.1 ∧ e.1 ≤ hi then (cb e.1 e.2 s1.1, s1.2) else s1
    if e.1 > hi then
      (if leaf then s2 else bt_range_node lo hi cb c s2)
    else bt_range_go lo hi cb leaf es cs s2
termination_by es cs _ => (sizeOf cs + es.length, 1)
decreasing_by
  all_goals simp_wf
  all_goals omega
end

/-- `bt_range_search(tree, lo, hi, cb, arg, stats)`. -/
def bt_range_search (tr : BTree α) (lo hi : BTKey) (cb : BTKey → Option α → σ → σ)
    (s : σ × Nat) : σ × Nat :=
  bt_range_node lo hi cb tr.root s

mutual
/-- The emission sequence of one `bt_range_node` traversal: the list of
`cb(k, v)` invocations in order. `bt_range_transport` below proves that the
generic traversal is exactly a fold of the callback over this list, so this
is a faithful projection of the traversal, not an independent algorithm. -/
def btEmits (lo hi : BTKey) : BTreeNode α → List (BTKey × Option α)
  | .mk ks vs cs leaf => btEmitsGo lo hi leaf (ks.zip vs) cs
termination_by n => (sizeOf n, 0)
decreasing_by
  simp_wf
  rename_i vs2 cs2 lf2
  have h2 := length_lt_sizeOf vs2
  omega

/-- Emissions of the entry loop (see `bt_range_go`). -/
def btEmitsGo (lo hi : BTKey) (leaf : Bool) :
    List (BTKey × Option α) → List (BTreeNode α) → List (BTKey × Option α)
  | [], [] => []
  | [], c :: _ => if leaf then [] else btEmits lo hi c
  | e :: es, [] =>
    let l2 := if lo ≤ e.1 ∧ e.1 ≤ hi then [e] else []
    if e.1 > hi then l2 else l2 ++ btEmitsGo lo hi leaf es []
  | e :: es, c :: cs =>
    let l1 := if ¬leaf ∧ lo ≤ e.1 then btEmits lo hi c else []
    let l2 := l1 ++ (if lo ≤ e.1 ∧ e.1 ≤ hi then [e] else [])
    if e.1 > hi then l2 ++ (if leaf then [] else btEmits lo hi c)
    else l2 ++ btEmitsGo lo hi leaf es cs
termination_by es cs => (sizeOf cs + es.length, 1)
decreasing_by
  all_goals simp_wf
  all_goals omega
end

mutual
/-- The `stats->node_visits` increments of one `bt_range_node` traversal
(see `bt_range_transport`). -/
def btRangeVisits (lo hi : BTKey) : BTreeNode α → Nat
  | .mk ks vs cs leaf => 1 + btGoVisits lo hi leaf (ks.zip vs) cs
termination_by n => (sizeOf n, 0)
decreasing_by
  simp_wf
  rename_i vs2 cs2 lf2
  have h2 := length_lt_sizeOf vs2
  omega

/-- Node visits of the entry loop. -/
def btGoVisits (lo hi : BTKey) (leaf : Bool) :
    List (BTKey × Option α) → List (BTreeNode α) → Nat
  | [], [] => 0
  | [], c :: _ => if leaf then 0 else btRangeVisits lo hi c
  | e :: es, [] => if e.1 > hi then 0 else btGoVisits lo hi leaf es []
  | e :: es, c :: cs =>
    (if ¬leaf ∧ lo ≤ e.1 then btRangeVisits lo hi c else 0) +
    (if e.1 > hi then (if leaf then 0 else btRangeVisits lo hi c)
     else btGoVisits lo hi leaf es cs)
termination_by es cs => (sizeOf cs + es.length, 1)
decreasing_by
  all_goals simp_wf
  all_goals omega
end

mutual
/-- In-order listing of the (key, payload) pairs of a subtree
(specification device, not part of the C source). -/
def flatten : BTreeNode α → List (BTKey × Option α)
  | .mk ks vs cs leaf => if leaf then ks.zip vs else flattenAux cs (ks.zip vs)
termination_by n => (sizeOf n, 0)

/-- Interleaves children subtrees with the node's own entries in key order:
`child 0, entry 0, child 1, entry 1, …, child nkeys`. -/
def flattenAux : List (BTreeNode α) → List (BTKey × Option α) → List (BTKey × Option α)
  | [], es => es
  | c :: cs, [] => flatten c ++ flattenAux cs []
  | c :: cs, e :: es => flatten c ++ e :: flattenAux cs es
termination_by cs _ => (sizeOf cs, 1)
end

/-- The keys of an entry list. -/
def keysOf (l : List (BTKey × Option α)) : List BTKey := l.map Prod.fst

/-- First binding of key `k` in an entry list: `none` when `k` is absent,
`some p` when `k` is bound to payload `p` (which may itself be the NULL
sentinel `none`). -/
def entriesFind (k : BTKey) : List (BTKey × Option α) → Option (Option α)
  | [] => none
  | e :: es => if e.1 = k then some e.2 else entriesFind k es

/-- Sorted-position insertion into an entry list (replacing an equal key):
the specification of upsert on the in-order listing. -/
def insertEntry (k : BTKey) (v : Option α) :
    List (BTKey × Option α) → List (BTKey × Option α)
  | [] => [(k, v)]
  | e :: es =>
    if k < e.1 then (k, v) :: e :: es
    else if k = e.1 then (k, v) :: es
    else e :: insertEntry k v es

/-- Entry keys in strictly increasing order. -/
def sortedKeys (l : List (BTKey × Option α)) : Prop :=
  List.Pairwise (· < ·) (keysOf l)

/-- Structural well-formedness: values and keys line up, a leaf has no
children, an internal node has `nkeys + 1` children, recursively. -/
def shapeB : BTreeNode α → Bool
  | .mk ks vs cs leaf =>
    (vs.length == ks.length) &&
    (if leaf then cs.isEmpty else cs.length == ks.length + 1) &&
    cs.attach.all fun c => shapeB c.1
decreasing_by
  simp_wf
  have := List.sizeOf_lt_of_mem c.2
  omega

/-- The invariant every tree reachable by fresh-key inserts satisfies. -/
def btInv (n : BTreeNode α) : Prop :=
  shapeB n = true ∧ sortedKeys (flatten n)

/-- `HCParams` (src/hctree.h); the `double` fields are modelled as `ℚ`. -/
structure HCParams where
  decay_alpha : ℚ
  hot_threshold : ℚ
  max_hot_fraction : ℚ
  inclusive : Bool

/-- The running counters of `HCStats` (the snapshot fields `hot_keys` and
`cold_keys` are recomputed on demand by `hc_get_stats`). -/
structure HCStats where
  queries : Nat
  hot_hits : Nat
  cold_hits : Nat
  not_found : Nat
  hot_node_visits : Nat
  cold_node_visits : Nat

/-- `HCIndex`: two B-trees, the dense score array (modelled as a function on
keys), the parameters and the statistics. -/
structure HCIndex (α : Type) where
  hot : BTree α
  cold : BTree α
  max_key : BTKey
  hit_score : BTKey → ℚ
  params : HCParams
  stats : HCStats

/-- `hc_create(max_key, btree_degree, params)`. -/
def hc_create (max_key : BTKey) (btree_degree : Nat) (params : HCParams) :
    HCIndex α :=
  ⟨bt_create btree_degree, bt_create btree_degree, max_key,
   fun _ => 0, params, ⟨0, 0, 0, 0, 0, 0⟩⟩

/-- `hc_insert(idx, k, v)`: the boolean records whether the out-of-range
diagnostic was written to stderr. -/
def hc_insert (idx : HCIndex α) (k : BTKey) (v : Option α) : HCIndex α × Bool :=
  if k < 0 ∨ k > idx.max_key then (idx, true)
  else ({ idx with cold := bt_insert idx.cold k v }, false)

/-- `maybe_promote(idx, k)`. The C computes `(size_t)(max_key + 1)`; for the
`max_key ≥ 0` regime the claims quantify over this equals `(max_key+1).toNat`. -/
def maybe_promote (idx : HCIndex α) (k : BTKey) : HCIndex α :=
  if idx.params.inclusive = false then idx
  else
    let total : Nat := (idx.max_key + 1).toNat
    let hot_keys : Nat := bt_count_keys idx.hot
    let max_hot : ℚ := idx.params.max_hot_fraction * (total : ℚ)
    if (hot_keys : ℚ) ≥ max_hot then idx
    else
      let existing := (bt_search idx.hot k).1
      if existing.isSome then idx
      else
        let v := (bt_search idx.cold k).1
        if v.isSome = false then idx
        else { idx with hot := bt_insert idx.hot k v }

/-- The nodes one `bt_insert_nonfull` call examines on its way down: the
node itself, plus - in the full-child case - the child that
`bt_split_child` reads and splits before the recursion continues into one
of its halves. -/
def bt_insert_nonfull_visits (t : Nat) (k : BTKey) : BTreeNode α → Nat
  | .mk ks vs cs leaf =>
    if leaf then 1
    else
      let i := descendIdx k ks
      match h : cs.get? i with
      | none => 1
      | some c =>
        if c.nkeys = 2 * t - 1 then
          let m := bt_split_child t (.mk ks vs cs leaf) i
          if k > m.keys.getD i 0 then
            1 + 1 + bt_insert_nonfull_visits t k (splitZ t c)
          else
            1 + 1 + bt_insert_nonfull_visits t k (splitY t c)
        else 1 + bt_insert_nonfull_visits t k c
decreasing_by
  · simp_wf
    have h1 := List.sizeOf_lt_of_mem (List.get?_mem h)
    have h2 := sizeOf_splitZ_le t c
    omega
  · simp_wf
    have h1 := List.sizeOf_lt_of_mem (List.get?_mem h)
    have h2 := sizeOf_splitY_le t c
    omega
  · simp_wf
    have h1 := List.sizeOf_lt_of_mem (List.get?_mem h)
    omega

/-- The nodes `bt_insert(tree, k, v)` examines: on a full root,
`bt_split_child` first reads the old root through the new root's child slot
(the leading `1`) before the non-full descent starts at the new root. The
count does not depend on the inserted payload. -/
def bt_insert_visits (tr : BTree α) (k : BTKey) : Nat :=
  if tr.root.nkeys = 2 * tr.t - 1 then
    1 + bt_insert_nonfull_visits tr.t k (bt_split_child tr.t (.mk [] [] [tr.root] false) 0)
  else bt_insert_nonfull_visits tr.t k tr.root

/-- The nodes `maybe_promote(idx, k)` physically examines: the two full
`bt_count_keys` walks - over `hot` AND over `cold` (hctree.c:50-51, the cold
walk runs unconditionally even though its result is unused) - plus the
`node_visits` of the `bt_search` calls whose local `BTStats` the C code
discards, plus, when the promotion is carried out, the nodes the final
`bt_insert` into hot examines. -/
def maybe_promote_visits (idx : HCIndex α) (k : BTKey) : Nat :=
  if idx.params.inclusive = false then 0
  else
    let hot_keys : Nat := bt_count_keys idx.hot
    let countWalks := btNodes idx.hot.root + btNodes idx.cold.root
    let max_hot : ℚ := idx.params.max_hot_fraction * (((idx.max_key + 1).toNat : ℚ))
    if (hot_keys : ℚ) ≥ max_hot then countWalks
    else
      let s := bt_search idx.hot k
      if s.1.isSome then countWalks + s.2
      else
        let s2 := bt_search idx.cold k
        if s2.1.isSome = false then countWalks + s.2 + s2.2
        else countWalks + s.2 + s2.2 + bt_insert_visits idx.hot k

/-- `hc_search(idx, k)`: returns the updated index and the payload. -/
def hc_search (idx : HCIndex α) (k : BTKey) : HCIndex α × Option α :=
  let st0 := { idx.stats with queries := idx.stats.queries + 1 }
  let hotP := bt_search idx.hot k
  let st1 := { st0 with hot_node_visits := st0.hot_node_visits + hotP.2 }
  if hotP.1.isSome then
    let idx1 := { idx with stats := { st1 with hot_hits := st1.hot_hits + 1 } }
    let idx2 :=
      if 0 ≤ k ∧ k ≤ idx.max_key then
        { idx1 with hit_score := fun j =>
            if j = k then idx.params.decay_alpha * idx.hit_score k + 1
            else idx.hit_score j }
      else idx1
    (idx2, hotP.1)
  else
    let coldP := bt_search idx.cold k
    let st2 := { st1 with cold_node_visits := st1.cold_node_visits + coldP.2 }
    if coldP.1.isSome then
      let idx1 := { idx with stats := { st2 with cold_hits := st2.cold_hits + 1 } }
      let idx2 :=
        if 0 ≤ k ∧ k ≤ idx.max_key then
          let new_score := idx.params.decay_alpha * idx.hit_score k + 1
          let idx1a := { idx1 with hit_score := fun j =>
              if j = k then new_score else idx.hit_score j }
          if new_score ≥ idx.params.hot_threshold then maybe_promote idx1a k
          else idx1a
        else idx1
      (idx2, coldP.1)
    else
      ({ idx with stats := { st2 with not_found := st2.not_found + 1 } }, none)

/-- `hc_range_cb_hot`: the dedup filter over the user callback. The C `seen`
bitmap over `[0, max_key]` is modelled as the list of already-marked keys;
the user emissions are accumulated in order in the second component. -/
def hc_range_cb_hot (max_key : BTKey) (k : BTKey) (v : Option α)
    (ctx : List BTKey × List (BTKey × Option α)) :
    List BTKey × List (BTKey × Option α) :=
  if k < 0 ∨ k > max_key then ctx
  else if k ∈ ctx.1 then ctx
  else (k :: ctx.1, ctx.2 ++ [(k, v)])

/-- `hc_range_cb_cold`: textually identical to `hc_range_cb_hot` in the C. -/
def hc_range_cb_cold (max_key : BTKey) (k : BTKey) (v : Option α)
    (ctx : List BTKey × List (BTKey × Option α)) :
    List BTKey × List (BTKey × Option α) :=
  if k < 0 ∨ k > max_key then ctx
  else if k ∈ ctx.1 then ctx
  else (k :: ctx.1, ctx.2 ++ [(k, v)])

/-- `hc_range_search(idx, lo, hi, cb, arg)`: hot traversal, then cold with the
same dedup context; node visits of each accrue to the per-tier counters.
Returns the updated index and the emitted pairs in emission order. -/
def hc_range_search (idx : HCIndex α) (lo hi : BTKey) :
    HCIndex α × List (BTKey × Option α) :=
  let r1 := bt_range_search idx.hot lo hi (hc_range_cb_hot idx.max_key) (([], []), 0)
  let r2 := bt_range_search idx.cold lo hi (hc_range_cb_cold idx.max_key) (r1.1, 0)
  let st := { idx.stats with
      hot_node_visits := idx.stats.hot_node_visits + r1.2,
      cold_node_visits := idx.stats.cold_node_visits + r2.2 }
  ({ idx with stats := st }, r2.1.2)

/-- One public TieredIndex operation. -/
inductive HCOp (α : Type) where
  | ins (k : BTKey) (v : Option α)
  | sea (k : BTKey)
  | rng (lo hi : BTKey)

/-- Apply one operation to the index (discarding the returned value). -/
def hcStep (idx : HCIndex α) : HCOp α → HCIndex α
  | .ins k v => (hc_insert idx k v).1
  | .sea k => (hc_search idx k).1
  | .rng lo hi => (hc_range_search idx lo hi).1

/-- Run a sequence of operations. -/
def hcRun (idx : HCIndex α) (ops : List (HCOp α)) : HCIndex α :=
  ops.foldl hcStep idx

/-! ### Basic lemmas about the embedding -/

/-- Strong induction on the size of a node. -/
theorem BTreeNode.strongRec {motive : BTreeNode α → Prop}
    (h : ∀ n : BTreeNode α, (∀ m : BTreeNode α, sizeOf m < sizeOf n → motive m) →
      motive n) : ∀ n, motive n
  | n => h n fun m hm => BTreeNode.strongRec h m
termination_by n => sizeOf n
decreasing_by exact hm

theorem sizeOf_tail_node (a : BTKey) (b : Option α) (c : BTreeNode α)
    (ks : List BTKey) (vs : List (Option α)) (cs : List (BTreeNode α)) (lf lf' : Bool) :
    sizeOf (BTreeNode.mk ks vs cs lf) <
      sizeOf (BTreeNode.mk (a :: ks) (b :: vs) (c :: cs) lf') := by
  simp
  omega

theorem shapeB_mk_iff (ks : List BTKey) (vs : List (Option α))
    (cs : List (BTreeNode α)) (leaf : Bool) :
    shapeB (.mk ks vs cs leaf) = true ↔
      vs.length = ks.length ∧
      (if leaf then cs = [] else cs.length = ks.length + 1) ∧
      ∀ c ∈ cs, shapeB c = true := by
  rw [shapeB]
  simp [List.all_eq_true, List.isEmpty_iff]
  cases leaf <;> simp <;> tauto

theorem flatten_mk (ks : List BTKey) (vs : List (Option α))
    (cs : List (BTreeNode α)) (leaf : Bool) :
    flatten (.mk ks vs cs leaf) =
      if leaf then ks.zip vs else flattenAux cs (ks.zip vs) := by
  rw [flatten]

theorem flattenAux_nil (es : List (BTKey × Option α)) : flattenAux ([] : List (BTreeNode α)) es = es := by
  rw [flattenAux]

theorem flattenAux_cons_nil (c : BTreeNode α) (cs : List (BTreeNode α)) :
    flattenAux (c :: cs) [] = flatten c ++ flattenAux cs [] := by
  rw [flattenAux]

theorem flattenAux_cons_cons (c : BTreeNode α) (cs : List (BTreeNode α))
    (e : BTKey × Option α) (es : List (BTKey × Option α)) :
    flattenAux (c :: cs) (e :: es) = flatten c ++ e :: flattenAux cs es := by
  rw [flattenAux]

theorem keysOf_nil : keysOf ([] : List (BTKey × Option α)) = [] := rfl

theorem keysOf_cons (e : BTKey × Option α) (l : List (BTKey × Option α)) :
    keysOf (e :: l) = e.1 :: keysOf l := rfl

theorem keysOf_append (l1 l2 : List (BTKey × Option α)) :
    keysOf (l1 ++ l2) = keysOf l1 ++ keysOf l2 := by
  simp [keysOf]

theorem mem_keysOf {x : BTKey} {l : List (BTKey × Option α)} :
    x ∈ keysOf l ↔ ∃ p, (x, p) ∈ l := by
  constructor
  · intro h
    rcases List.mem_map.1 h with ⟨e, he, rfl⟩
    exact ⟨e.2, he⟩
  · rintro ⟨p, hp⟩
    exact List.mem_map.2 ⟨(x, p), hp, rfl⟩

theorem sortedKeys_nil : sortedKeys ([] : List (BTKey × Option α)) := by
  simp [sortedKeys, keysOf]

theorem sortedKeys_cons {e : BTKey × Option α} {l : List (BTKey × Option α)} :
    sortedKeys (e :: l) ↔ (∀ x ∈ keysOf l, e.1 < x) ∧ sortedKeys l := by
  simp [sortedKeys, keysOf_cons, List.pairwise_cons]

theorem sortedKeys_append {l1 l2 : List (BTKey × Option α)} :
    sortedKeys (l1 ++ l2) ↔
      sortedKeys l1 ∧ sortedKeys l2 ∧
      ∀ x ∈ keysOf l1, ∀ y ∈ keysOf l2, x < y := by
  simp [sortedKeys, keysOf_append, List.pairwise_append]

theorem entriesFind_append (k : BTKey) (l1 l2 : List (BTKey × Option α)) :
    entriesFind k (l1 ++ l2) =
      (entriesFind k l1).orElse fun _ => entriesFind k l2 := by
  induction l1 with
  | nil => simp [entriesFind]
  | cons e es ih =>
    by_cases h : e.1 = k <;> simp [entriesFind, h, ih]

theorem entriesFind_eq_none (k : BTKey) (l : List (BTKey × Option α)) :
    entriesFind k l = none ↔ k ∉ keysOf l := by
  induction l with
  | nil => simp [entriesFind, keysOf]
  | cons e es ih =>
    by_cases h : e.1 = k
    · simp [entriesFind, h, keysOf_cons, List.mem_cons, ih]
    · simp [entriesFind, h, keysOf_cons, List.mem_cons, ih]
      tauto

theorem entriesFind_mem {k : BTKey} {p : Option α} {l : List (BTKey × Option α)}
    (h : entriesFind k l = some p) : (k, p) ∈ l := by
  induction l with
  | nil => simp [entriesFind] at h
  | cons e es ih =>
    by_cases he : e.1 = k
    · simp [entriesFind, he] at h
      have : e = (k, p) := by
        cases e
        simp at he h
        simp [he, h]
      simp [this]
    · simp [entriesFind, he] at h
      exact List.mem_cons_of_mem _ (ih h)

theorem mem_entriesFind {k : BTKey} {p : Option α} {l : List (BTKey × Option α)}
    (hl : sortedKeys l) (h : (k, p) ∈ l) : entriesFind k l = some p := by
  induction l with
  | nil => simp at h
  | cons e es ih =>
    rcases List.mem_cons.1 h with rfl | h2
    · simp [entriesFind]
    · have hcons := sortedKeys_cons.1 hl
      have hk : e.1 < k := hcons.1 k (mem_keysOf.2 ⟨p, h2⟩)
      have hne : e.1 ≠ k := ne_of_lt hk
      simp [entriesFind, hne, ih hcons.2 h2]

/-- `insertEntry` inserts to the left of any strictly larger suffix. -/
theorem insertEntry_append_left (k : BTKey) (v : Option α) (a : BTKey)
    (b : Option α) (l1 l2 : List (BTKey × Option α)) (hk : k < a) :
    insertEntry k v (l1 ++ (a, b) :: l2) = insertEntry k v l1 ++ (a, b) :: l2 := by
  induction l1 with
  | nil => simp [insertEntry, hk]
  | cons e es ih =>
    by_cases h1 : k < e.1
    · simp [insertEntry, h1]
    · by_cases h2 : k = e.1 <;> simp [insertEntry, h1, h2, ih]

theorem insertEntry_append_right (k : BTKey) (v : Option α)
    (l1 l2 : List (BTKey × Option α)) (hk : ∀ x ∈ keysOf l1, x < k) :
    insertEntry k v (l1 ++ l2) = l1 ++ insertEntry k v l2 := by
  induction l1 with
  | nil => simp
  | cons e es ih =>
    have he : e.1 < k := hk e.1 (by simp [keysOf_cons])
    have h1 : ¬ k < e.1 := lt_asymm he
    have h2 : k ≠ e.1 := ne_of_gt he
    simp only [List.cons_append, insertEntry, if_neg h1, if_neg h2, List.cons.injEq,
      true_and]
    exact ih fun x hx => hk x (by simp [keysOf_cons, hx])

theorem insertEntry_length (k : BTKey) (v : Option α) (l : List (BTKey × Option α))
    (h : k ∉ keysOf l) : (insertEntry k v l).length = l.length + 1 := by
  induction l with
  | nil => simp [insertEntry]
  | cons e es ih =>
    rw [keysOf_cons, List.mem_cons, not_or] at h
    by_cases h1 : k < e.1
    · simp [insertEntry, h1]
    · simp [insertEntry, h1, h.1, ih h.2]

theorem keysOf_insertEntry_subset (k : BTKey) (v : Option α)
    (l : List (BTKey × Option α)) :
    ∀ x ∈ keysOf (insertEntry k v l), x = k ∨ x ∈ keysOf l := by
  induction l with
  | nil =>
    intro x hx
    simp [insertEntry, keysOf] at hx
    exact Or.inl hx
  | cons e es ih =>
    intro x hx
    by_cases h1 : k < e.1
    · simp only [insertEntry, if_pos h1, keysOf_cons, List.mem_cons] at hx
      rcases hx with rfl | hx
      · exact Or.inl rfl
      · exact Or.inr (by simpa [keysOf_cons] using hx)
    · by_cases h2 : k = e.1
      · simp only [insertEntry, if_neg h1, if_pos h2, keysOf_cons, List.mem_cons] at hx
        rcases hx with rfl | hx
        · exact Or.inl rfl
        · exact Or.inr (by simp [keysOf_cons, hx])
      · simp only [insertEntry, if_neg h1, if_neg h2, keysOf_cons, List.mem_cons] at hx
        rcases hx with rfl | hx
        · exact Or.inr (by simp [keysOf_cons])
        · rcases ih x hx with rfl | hx2
          · exact Or.inl rfl
          · exact Or.inr (by simp [keysOf_cons, hx2])

theorem sorted_insertEntry (k : BTKey) (v : Option α)
    (l : List (BTKey × Option α)) (hl : sortedKeys l) :
    sortedKeys (insertEntry k v l) := by
  induction l with
  | nil =>
    simp only [insertEntry]
    exact sortedKeys_cons.2 ⟨by simp [keysOf], sortedKeys_nil⟩
  | cons e es ih =>
    have hcons := sortedKeys_cons.1 hl
    by_cases h1 : k < e.1
    · simp only [insertEntry, if_pos h1]
      refine sortedKeys_cons.2 ⟨?_, hl⟩
      intro x hx
      rw [keysOf_cons, List.mem_cons] at hx
      rcases hx with rfl | hx
      · exact h1
      · exact h1.trans (hcons.1 x hx)
    · by_cases h2 : k = e.1
      · simp only [insertEntry, if_neg h1, if_pos h2]
        subst h2
        exact sortedKeys_cons.2 ⟨hcons.1, hcons.2⟩
      · simp only [insertEntry, if_neg h1, if_neg h2]
        refine sortedKeys_cons.2 ⟨?_, ih hcons.2⟩
        intro x hx
        rcases keysOf_insertEntry_subset k v es x hx with rfl | hx2
        · exact lt_of_le_of_ne (not_lt.1 h1) (Ne.symm h2)
        · exact hcons.1 x hx2

theorem entriesFind_insertEntry_self (k : BTKey) (v : Option α)
    (l : List (BTKey × Option α)) : entriesFind k (insertEntry k v l) = some v := by
  induction l with
  | nil => simp [insertEntry, entriesFind]
  | cons e es ih =>
    by_cases h1 : k < e.1
    · simp [insertEntry, h1, entriesFind]
    · by_cases h2 : k = e.1
      · simp [insertEntry, h1, h2, entriesFind]
      · have : e.1 ≠ k := fun h => h2 h.symm
        simp [insertEntry, h1, h2, entriesFind, this, ih]

theorem entriesFind_insertEntry_other (k j : BTKey) (v : Option α)
    (l : List (BTKey × Option α)) (hjk : j ≠ k) :
    entriesFind j (insertEntry k v l) = entriesFind j l := by
  induction l with
  | nil => simp [insertEntry, entriesFind, Ne.symm hjk]
  | cons e es ih =>
    by_cases h1 : k < e.1
    · simp [insertEntry, h1, entriesFind, Ne.symm hjk]
    · by_cases h2 : k = e.1
      · subst h2
        simp [insertEntry, h1, entriesFind, Ne.symm hjk]
      · simp [insertEntry, h1, h2, entriesFind, ih]


/-! ### Search correctness -/

theorem lowerIdx_cons (k a : BTKey) (ks : List BTKey) :
    lowerIdx k (a :: ks) = if k > a then lowerIdx k ks + 1 else 0 := rfl

/-- The node-local scan of `bt_search_node` finds exactly the association-list
binding on a sorted key list. -/
theorem scanFind (k : BTKey) (ks : List BTKey) (vs : List (Option α))
    (hlen : vs.length = ks.length) (hs : List.Pairwise (· < ·) ks) :
    entriesFind k (ks.zip vs) =
      if lowerIdx k ks < ks.length ∧ ks.getD (lowerIdx k ks) 0 = k
      then some (vs.getD (lowerIdx k ks) none) else none := by
  induction ks generalizing vs with
  | nil => simp [entriesFind, lowerIdx]
  | cons a ks ih =>
    cases vs with
    | nil => simp at hlen
    | cons b vs =>
      simp only [List.length_cons] at hlen
      have hs2 := List.pairwise_cons.1 hs
      by_cases hka : k > a
      · have hne : a ≠ k := ne_of_lt hka
        rw [List.zip_cons_cons]
        simp only [entriesFind, hne, if_false, lowerIdx_cons, if_pos hka]
        rw [ih vs (by omega) hs2.2]
        simp [List.getD_cons_succ]
      · rw [List.zip_cons_cons]
        simp only [lowerIdx_cons, if_neg hka]
        by_cases heq : a = k
        · simp [entriesFind, heq]
        · have hlt : k < a := lt_of_le_of_ne (not_lt.1 hka) fun h => heq h.symm
          have hnotmem : k ∉ keysOf (ks.zip vs) := by
            intro hmem
            have hks : k ∈ ks := by
              have := List.map_fst_zip ks vs (by omega)
              rw [keysOf] at hmem
              rw [this] at hmem
              exact hmem
            exact absurd (hs2.1 k hks) (lt_asymm hlt)
          simp [entriesFind, heq, (entriesFind_eq_none k _).2 hnotmem]

theorem bt_search_node_mk (k : BTKey) (ks : List BTKey) (vs : List (Option α))
    (cs : List (BTreeNode α)) (leaf : Bool) :
    bt_search_node k (.mk ks vs cs leaf) =
      if lowerIdx k ks < ks.length ∧ ks.getD (lowerIdx k ks) 0 = k
      then (vs.getD (lowerIdx k ks) none, 1)
      else if leaf then (none, 1)
      else
        match cs.get? (lowerIdx k ks) with
        | some c => ((bt_search_node k c).1, (bt_search_node k c).2 + 1)
        | none => (none, 1) := by
  rw [bt_search_node]
  split
  · rfl
  · split
    · rfl
    · split
      next c heq => rw [heq]
      next heq => rw [heq]

/-- Stepping past the head entry: when `k` exceeds the first key of an
internal node, the search behaves exactly as on the node with its first
entry and first child removed. -/
theorem bt_search_node_cons_gt (k a : BTKey) (b : Option α) (c : BTreeNode α)
    (ks : List BTKey) (vs : List (Option α)) (cs : List (BTreeNode α))
    (hk : k > a) :
    bt_search_node k (.mk (a :: ks) (b :: vs) (c :: cs) false) =
      bt_search_node k (.mk ks vs cs false) := by
  rw [bt_search_node_mk, bt_search_node_mk]
  simp only [lowerIdx_cons, if_pos hk, List.length_cons, add_lt_add_iff_right,
    List.getD_cons_succ, List.get?_cons_succ]

/-- Sortedness facts for the decomposition of an internal node's listing. -/
theorem sorted_parts {l1 l2 : List (BTKey × Option α)} {a : BTKey} {b : Option α}
    (h : sortedKeys (l1 ++ (a, b) :: l2)) :
    sortedKeys l1 ∧ sortedKeys l2 ∧ (∀ x ∈ keysOf l1, x < a) ∧
      (∀ y ∈ keysOf l2, a < y) := by
  have h1 := sortedKeys_append.1 h
  have h2 := sortedKeys_cons.1 h1.2.1
  refine ⟨h1.1, h2.2, ?_, h2.1⟩
  intro x hx
  exact h1.2.2 x hx a (by simp [keysOf_cons])

/-- `bt_search_node` returns the payload bound to `k` in the in-order
listing (and NULL both when `k` is absent and when it is bound to NULL). -/
theorem bt_search_node_flatten (k : BTKey) :
    ∀ n : BTreeNode α, btInv n →
      (bt_search_node k n).1 = (entriesFind k (flatten n)).getD none := by
  refine BTreeNode.strongRec ?_
  intro n IH hinv
  obtain ⟨ks, vs, cs, leaf⟩ := n
  obtain ⟨hshape, hsorted⟩ := hinv
  obtain ⟨hlen, hcs, hch⟩ := (shapeB_mk_iff ks vs cs leaf).1 hshape
  cases leaf with
  | true =>
    rw [flatten_mk, if_pos rfl] at hsorted ⊢
    have hks : List.Pairwise (· < ·) ks := by
      have := List.map_fst_zip ks vs (by omega)
      rw [sortedKeys, keysOf, this] at hsorted
      exact hsorted
    rw [bt_search_node_mk, scanFind k ks vs hlen hks]
    by_cases hfound : lowerIdx k ks < ks.length ∧ ks.getD (lowerIdx k ks) 0 = k
    · rw [if_pos hfound, if_pos hfound]
      simp
    · rw [if_neg hfound, if_neg hfound]
      simp
  | false =>
    rw [if_neg (by simp)] at hcs
    rw [flatten_mk, if_neg (by simp)] at hsorted ⊢
    cases ks with
    | nil =>
      cases vs with
      | cons b vs => simp at hlen
      | nil =>
        cases cs with
        | nil => simp at hcs
        | cons c cs2 =>
          simp at hcs
          subst hcs
          rw [List.zip_nil_left, flattenAux_cons_nil, flattenAux_nil,
            List.append_nil] at hsorted ⊢
          rw [bt_search_node_mk]
          norm_num [lowerIdx]
          exact IH c (by simp; omega) ⟨hch c (by simp), hsorted⟩
    | cons a ks =>
      cases vs with
      | nil => simp at hlen
      | cons b vs =>
        cases cs with
        | nil => simp at hcs
        | cons c cs =>
          rw [List.zip_cons_cons, flattenAux_cons_cons] at hsorted ⊢
          obtain ⟨hs1, hs2, hlt, hgt⟩ := sorted_parts hsorted
          have hfc : k > a → entriesFind k (flatten c) = none := fun hka =>
            (entriesFind_eq_none k _).2 fun hmem => absurd (hlt k hmem) (lt_asymm hka)
          by_cases hka : k > a
          · rw [bt_search_node_cons_gt _ _ _ _ _ _ _ hka]
            have hvirt : btInv (BTreeNode.mk ks vs cs false) := by
              refine ⟨(shapeB_mk_iff _ _ _ _).2 ⟨by simpa using hlen, ?_, ?_⟩, ?_⟩
              · simpa using hcs
              · exact fun c' hc' => hch c' (List.mem_cons_of_mem _ hc')
              · rw [flatten_mk, if_neg (by simp)]
                exact hs2
            rw [IH _ (sizeOf_tail_node a b c ks vs cs false false) hvirt]
            rw [flatten_mk, if_neg (by simp)]
            rw [entriesFind_append, hfc hka]
            have hne : a ≠ k := ne_of_lt hka
            simp [entriesFind, hne]
          · by_cases heq : a = k
            · rw [bt_search_node_mk]
              have hcond : lowerIdx k (a :: ks) < (a :: ks).length ∧
                  (a :: ks).getD (lowerIdx k (a :: ks)) 0 = k := by
                rw [lowerIdx_cons, if_neg hka]
                simp [heq]
              rw [if_pos hcond, lowerIdx_cons, if_neg hka]
              have hfc2 : entriesFind k (flatten c) = none := by
                refine (entriesFind_eq_none k _).2 fun hmem => ?_
                have h5 := hlt k hmem
                rw [heq] at h5
                exact lt_irrefl k h5
              rw [entriesFind_append, hfc2]
              simp [entriesFind, heq]
            · have hklt : k < a := lt_of_le_of_ne (not_lt.1 hka) fun h => heq h.symm
              rw [bt_search_node_mk]
              have hcond : ¬(lowerIdx k (a :: ks) < (a :: ks).length ∧
                  (a :: ks).getD (lowerIdx k (a :: ks)) 0 = k) := by
                rw [lowerIdx_cons, if_neg hka]
                simp [heq]
              rw [if_neg hcond, if_neg (by simp), lowerIdx_cons, if_neg hka]
              have hX : entriesFind k (flattenAux cs (ks.zip vs)) = none := by
                refine (entriesFind_eq_none k _).2 fun hmem =>
                  absurd (hgt k hmem) (lt_asymm hklt)
              rw [entriesFind_append]
              have hne : a ≠ k := heq
              simp only [List.get?, entriesFind, if_neg hne, hX]
              have hszc : sizeOf c <
                  sizeOf (BTreeNode.mk (a :: ks) (b :: vs) (c :: cs) false) := by
                have := List.sizeOf_lt_of_mem (show c ∈ c :: cs by simp)
                simp only [BTreeNode.mk.sizeOf_spec]
                simp at this ⊢
                omega
              rw [IH c hszc ⟨hch c (by simp), hs1⟩]
              cases entriesFind k (flatten c) <;> simp [Option.orElse]


/-! ### The insertion index -/

theorem takeWhile_append_one_length {β : Type} (p : β → Bool) (l : List β) (x : β) :
    ((l ++ [x]).takeWhile p).length =
      if (l.takeWhile p).length = l.length then
        (if p x then l.length + 1 else l.length)
      else (l.takeWhile p).length := by
  induction l with
  | nil => by_cases hp : p x <;> simp [List.takeWhile, hp]
  | cons a l ih =>
    have hle : (l.takeWhile p).length ≤ l.length :=
      (List.takeWhile_sublist p).length_le
    by_cases hp : p a
    · simp only [List.cons_append, List.takeWhile_cons, hp, if_true, List.length_cons, ih]
      by_cases h2 : (l.takeWhile p).length = l.length
      · by_cases h3 : p x <;> simp [h2, h3]
      · by_cases h3 : p x <;> simp [h2, h3]
    · simp only [List.cons_append, List.takeWhile_cons, hp, if_false, List.length_cons,
        List.length_nil]
      have hne : ¬ (0 = l.length + 1) := by omega
      simp [hne]

theorem suffLen_le (k : BTKey) (ks : List BTKey) : suffLen k ks ≤ ks.length := by
  have := (List.takeWhile_sublist (l := ks.reverse) (fun x => decide (k < x))).length_le
  simpa [suffLen] using this

theorem suffLen_cons (k a : BTKey) (ks : List BTKey) :
    suffLen k (a :: ks) =
      if suffLen k ks = ks.length ∧ k < a then ks.length + 1 else suffLen k ks := by
  have h := takeWhile_append_one_length (fun x => decide (k < x)) ks.reverse a
  rw [suffLen, List.reverse_cons, h]
  simp only [List.length_reverse]
  by_cases h1 : suffLen k ks = ks.length <;> by_cases h2 : k < a <;>
    simp [suffLen, h1, h2] <;> omega

theorem descendIdx_le (k : BTKey) (ks : List BTKey) :
    descendIdx k ks ≤ ks.length := by
  simp [descendIdx]

theorem descendIdx_cons_gt (k a : BTKey) (ks : List BTKey) (hk : k > a) :
    descendIdx k (a :: ks) = descendIdx k ks + 1 := by
  have h1 := suffLen_le k ks
  rw [descendIdx, descendIdx, suffLen_cons]
  rw [if_neg fun h => absurd h.2 (lt_asymm hk)]
  simp
  omega

theorem descendIdx_all_gt (k : BTKey) (ks : List BTKey)
    (h : ∀ x ∈ ks, k < x) : descendIdx k ks = 0 := by
  have hfull : suffLen k ks = ks.length := by
    induction ks with
    | nil => simp [suffLen]
    | cons a ks ih =>
      rw [suffLen_cons, if_pos ⟨ih fun x hx => h x (by simp [hx]), h a (by simp)⟩]
      simp
  simp [descendIdx, hfull]

/-- On a sorted key list without `k`, everything left of the insertion slot is
below `k` and everything from the slot on is above `k`. -/
theorem descendIdx_split (k : BTKey) (ks : List BTKey)
    (hs : List.Pairwise (· < ·) ks) (hk : k ∉ ks) :
    (∀ x ∈ ks.take (descendIdx k ks), x < k) ∧
    (∀ x ∈ ks.drop (descendIdx k ks), k < x) := by
  induction ks with
  | nil => simp [descendIdx, suffLen]
  | cons a ks ih =>
    have hs2 := List.pairwise_cons.1 hs
    have hka : k ≠ a := fun h => hk (by simp [h])
    by_cases hgt : k > a
    · rw [descendIdx_cons_gt k a ks hgt]
      obtain ⟨ihl, ihr⟩ := ih hs2.2 fun h => hk (by simp [h])
      refine ⟨?_, ?_⟩
      · intro x hx
        rw [List.take_succ_cons] at hx
        rcases List.mem_cons.1 hx with rfl | hx2
        · exact hgt
        · exact ihl x hx2
      · intro x hx
        rw [List.drop_succ_cons] at hx
        exact ihr x hx
    · have hlt : k < a := lt_of_le_of_ne (not_lt.1 hgt) hka
      have hall : ∀ x ∈ a :: ks, k < x := by
        intro x hx
        rcases List.mem_cons.1 hx with rfl | hx2
        · exact hlt
        · exact hlt.trans (hs2.1 x hx2)
      rw [descendIdx_all_gt k (a :: ks) hall]
      exact ⟨by simp, by simpa using hall⟩

theorem insertEntry_eq_cons (k : BTKey) (v : Option α)
    (l : List (BTKey × Option α)) (h : ∀ x ∈ keysOf l, k < x) :
    insertEntry k v l = (k, v) :: l := by
  cases l with
  | nil => rfl
  | cons e es => simp [insertEntry, h e.1 (by simp [keysOf_cons])]

/-- The fresh-key case of the leaf insertion: the shifted arrays zip to the
sorted insertion of `(k, v)`. -/
theorem bt_leaf_insert_fresh (k : BTKey) (v : Option α) (ks : List BTKey)
    (vs : List (Option α)) (hlen : vs.length = ks.length)
    (hs : List.Pairwise (· < ·) ks) (hk : k ∉ ks) :
    (bt_leaf_insert k v ks vs).1 = ks.take (descendIdx k ks) ++ k :: ks.drop (descendIdx k ks) ∧
    (bt_leaf_insert k v ks vs).2 = vs.take (descendIdx k ks) ++ v :: vs.drop (descendIdx k ks) ∧
    (bt_leaf_insert k v ks vs).1.zip (bt_leaf_insert k v ks vs).2 =
      insertEntry k v (ks.zip vs) := by
  have hfl := descendIdx_le k ks
  have hnotdup : ¬ (0 < descendIdx k ks ∧ ks.getD (descendIdx k ks - 1) 0 = k) := by
    rintro ⟨hpos, heq⟩
    apply hk
    rw [← heq]
    have hj : descendIdx k ks - 1 < ks.length := by omega
    rw [List.getD_eq_getElem ks 0 hj]
    exact List.getElem_mem hj
  obtain ⟨hbelow, habove⟩ := descendIdx_split k ks hs hk
  have hmain : bt_leaf_insert k v ks vs =
      (ks.take (descendIdx k ks) ++ k :: ks.drop (descendIdx k ks),
       vs.take (descendIdx k ks) ++ v :: vs.drop (descendIdx k ks)) := by
    rw [bt_leaf_insert]
    simp only [if_neg hnotdup]
  rw [hmain]
  refine ⟨rfl, rfl, ?_⟩
  have hlt : (ks.take (descendIdx k ks)).length = (vs.take (descendIdx k ks)).length := by
    simp [hlen]
  rw [List.zip_append hlt, List.zip_cons_cons]
  have hsplit : ks.zip vs =
      (ks.take (descendIdx k ks)).zip (vs.take (descendIdx k ks)) ++
      (ks.drop (descendIdx k ks)).zip (vs.drop (descendIdx k ks)) := by
    conv_lhs => rw [← List.take_append_drop (descendIdx k ks) ks,
      ← List.take_append_drop (descendIdx k ks) vs]
    rw [List.zip_append hlt]
  rw [hsplit, insertEntry_append_right]
  · congr 1
    apply (insertEntry_eq_cons k v _ ?_).symm
    intro x hx
    rw [keysOf, List.map_fst_zip _ _ (by simp [hlen])] at hx
    exact habove x hx
  · intro x hx
    rw [keysOf, List.map_fst_zip _ _ (by simp [hlen])] at hx
    exact hbelow x hx


/-! ### Split and flatten decomposition -/

theorem insertEntry_append_left_all (k : BTKey) (v : Option α)
    (l1 l2 : List (BTKey × Option α)) (h : ∀ x ∈ keysOf l2, k < x) :
    insertEntry k v (l1 ++ l2) = insertEntry k v l1 ++ l2 := by
  cases l2 with
  | nil => simp
  | cons e es =>
    obtain ⟨a, b⟩ := e
    exact insertEntry_append_left k v a b l1 es (h a (by simp [keysOf_cons]))

theorem flattenAux_sublist (cs : List (BTreeNode α))
    (es : List (BTKey × Option α)) : es.Sublist (flattenAux cs es) := by
  induction cs generalizing es with
  | nil => rw [flattenAux_nil]
  | cons c cs ih =>
    cases es with
    | nil => simp
    | cons e es =>
      rw [flattenAux_cons_cons]
      exact (List.Sublist.cons₂ e (ih es)).trans (List.sublist_append_right _ _)

theorem take_getD_drop {β : Type} (d : β) (l : List β) (j : Nat) (h : j < l.length) :
    l = l.take j ++ l.getD j d :: l.drop (j + 1) := by
  rw [List.getD_eq_getElem l d h]
  conv_lhs => rw [← List.take_append_drop j l]
  rw [List.drop_eq_getElem_cons h]

theorem flattenAux_split (j : Nat) :
    ∀ (cs : List (BTreeNode α)) (es : List (BTKey × Option α)),
      j < es.length → es.length < cs.length →
      flattenAux cs es =
        flattenAux (cs.take (j+1)) (es.take j) ++
          es.getD j (0, none) :: flattenAux (cs.drop (j+1)) (es.drop (j+1)) := by
  induction j with
  | zero =>
    intro cs es h1 h2
    cases es with
    | nil => simp at h1
    | cons e es =>
      cases cs with
      | nil => simp at h2
      | cons c cs =>
        rw [flattenAux_cons_cons]
        have e1 : (c :: cs).take (0+1) = [c] := by simp
        have e4 : (c :: cs).drop (0+1) = cs := by simp
        rw [e1, e4]
        rw [show ((e :: es).take 0) = [] from rfl,
          show ((e :: es).getD 0 (0, none)) = e from rfl,
          show ((e :: es).drop (0+1)) = es from rfl,
          flattenAux_cons_nil, flattenAux_nil]
        simp
  | succ j ih =>
    intro cs es h1 h2
    cases es with
    | nil => simp at h1
    | cons e es =>
      cases cs with
      | nil => simp at h2
      | cons c cs =>
        rw [flattenAux_cons_cons, List.take_succ_cons, List.take_succ_cons,
          List.drop_succ_cons, List.drop_succ_cons, flattenAux_cons_cons,
          List.getD_cons_succ, ih cs es (by simpa using h1) (by simpa using h2)]
        simp

/-- Splitting a full node: the two halves and the promoted median entry
reassemble to the original in-order listing, and both halves are
structurally well formed. -/
theorem flatten_split_parts (t : Nat) (ht : 1 ≤ t) (c : BTreeNode α)
    (hshape : shapeB c = true) (hfull : c.nkeys = 2*t - 1) :
    flatten (splitY t c) ++
      (c.keys.getD (t-1) 0, c.values.getD (t-1) none) :: flatten (splitZ t c) =
      flatten c ∧
    shapeB (splitY t c) = true ∧ shapeB (splitZ t c) = true := by
  obtain ⟨yk, yv, yc, ylf⟩ := c
  obtain ⟨hlen, hcs, hch⟩ := (shapeB_mk_iff yk yv yc ylf).1 hshape
  rw [BTreeNode.nkeys, BTreeNode.keys] at hfull
  have hkl : yk.length = 2*t - 1 := hfull
  have hvl : yv.length = 2*t - 1 := by omega
  have htt : t - 1 + 1 = t := by omega
  cases ylf with
  | true =>
    rw [if_pos rfl] at hcs
    subst hcs
    refine ⟨?_, ?_, ?_⟩
    · rw [splitY, splitZ]
      rw [flatten_mk, flatten_mk, flatten_mk, if_pos rfl, if_pos rfl, if_pos rfl]
      simp only [BTreeNode.keys, BTreeNode.values]
      rw [List.take_of_length_le (l := yk.drop t) (by simp [hkl]; omega),
          List.take_of_length_le (l := yv.drop t) (by simp [hvl]; omega)]
      have h1 : (yk.take (t-1)).length = (yv.take (t-1)).length := by
        simp [hkl, hvl]
      conv_rhs => rw [take_getD_drop 0 yk (t-1) (by omega),
        take_getD_drop none yv (t-1) (by omega), htt]
      rw [List.zip_append h1, List.zip_cons_cons]
    · rw [splitY]
      refine (shapeB_mk_iff _ _ _ _).2 ⟨by simp [hlen], by simp, by simp⟩
    · rw [splitZ]
      refine (shapeB_mk_iff _ _ _ _).2 ⟨by simp [hlen], by simp, by simp⟩
  | false =>
    rw [if_neg (by simp)] at hcs
    have hcl : yc.length = 2*t := by omega
    refine ⟨?_, ?_, ?_⟩
    · rw [splitY, splitZ]
      rw [flatten_mk, flatten_mk, flatten_mk, if_neg (by simp), if_neg (by simp),
        if_neg (by simp)]
      simp only [BTreeNode.keys, BTreeNode.values, Bool.false_eq_true, if_false]
      rw [List.take_of_length_le (l := yk.drop t) (by simp [hkl]; omega),
          List.take_of_length_le (l := yv.drop t) (by simp [hvl]; omega),
          List.take_of_length_le (l := yc.drop t) (by simp [hcl]; omega)]
      have hsplit := flattenAux_split (t-1) yc (yk.zip yv)
        (by simp [hkl, hvl]; omega) (by simp [hkl, hvl, hcl]; omega)
      rw [htt] at hsplit
      rw [hsplit]
      congr 1
      · congr 1
        exact (List.take_zipWith).symm
      · congr 1
        · have h1 : t - 1 < (yk.zip yv).length := by
            simp [hkl, hvl]
            omega
          rw [List.getD_eq_getElem (yk.zip yv) (0, none) h1, List.getElem_zip,
            List.getD_eq_getElem yk 0 (by omega),
            List.getD_eq_getElem yv none (by omega)]
        · congr 1
          exact (List.drop_zipWith).symm
    · rw [splitY]
      refine (shapeB_mk_iff _ _ _ _).2 ⟨by simp [hlen], ?_, ?_⟩
      · rw [if_neg (by simp)]
        simp [hkl, hcl]
        omega
      · intro c' hc'
        exact hch c' (List.mem_of_mem_take hc')
    · rw [splitZ]
      refine (shapeB_mk_iff _ _ _ _).2 ⟨by simp [hlen], ?_, ?_⟩
      · rw [if_neg (by simp)]
        simp [hkl, hvl, hcl]
        omega
      · intro c' hc'
        exact hch c' (List.mem_of_mem_drop (List.mem_of_mem_take hc'))

theorem bt_split_child_zero (t : Nat) (ks : List BTKey) (vs : List (Option α))
    (c : BTreeNode α) (cs : List (BTreeNode α)) (lf : Bool) :
    bt_split_child t (.mk ks vs (c :: cs) lf) 0 =
      .mk (c.keys.getD (t-1) 0 :: ks) (c.values.getD (t-1) none :: vs)
          (splitY t c :: splitZ t c :: cs) lf := by
  simp [bt_split_child]

theorem bt_split_child_cons (t : Nat) (a : BTKey) (b : Option α)
    (c : BTreeNode α) (ks : List BTKey) (vs : List (Option α))
    (cs : List (BTreeNode α)) (lf : Bool) (i : Nat) :
    bt_split_child t (.mk (a :: ks) (b :: vs) (c :: cs) lf) (i+1) =
      .mk (a :: (bt_split_child t (.mk ks vs cs lf) i).keys)
          (b :: (bt_split_child t (.mk ks vs cs lf) i).values)
          (c :: (bt_split_child t (.mk ks vs cs lf) i).children) lf := by
  simp [bt_split_child, BTreeNode.keys, BTreeNode.values, BTreeNode.children,
    List.getD_cons_succ, List.take_succ_cons, List.drop_succ_cons]


/-! ### Unfolding equations for bt_insert_nonfull -/

theorem bt_insert_nonfull_leaf (t : Nat) (k : BTKey) (v : Option α)
    (ks : List BTKey) (vs : List (Option α)) (cs : List (BTreeNode α)) :
    bt_insert_nonfull t k v (.mk ks vs cs true) =
      .mk (bt_leaf_insert k v ks vs).1 (bt_leaf_insert k v ks vs).2 cs true := by
  rw [bt_insert_nonfull]
  rfl

theorem bt_insert_nonfull_oob (t : Nat) (k : BTKey) (v : Option α)
    (ks : List BTKey) (vs : List (Option α)) (cs : List (BTreeNode α))
    (h : cs.get? (descendIdx k ks) = none) :
    bt_insert_nonfull t k v (.mk ks vs cs false) = .mk ks vs cs false := by
  rw [bt_insert_nonfull]
  simp only [Bool.false_eq_true, if_false]
  split
  next => rfl
  next c2 heq => rw [h] at heq; cases heq

theorem bt_insert_nonfull_child (t : Nat) (k : BTKey) (v : Option α)
    (ks : List BTKey) (vs : List (Option α)) (cs : List (BTreeNode α))
    (c : BTreeNode α) (h : cs.get? (descendIdx k ks) = some c)
    (hnf : ¬ c.nkeys = 2*t - 1) :
    bt_insert_nonfull t k v (.mk ks vs cs false) =
      .mk ks vs (cs.set (descendIdx k ks) (bt_insert_nonfull t k v c)) false := by
  rw [bt_insert_nonfull]
  simp only [Bool.false_eq_true, if_false]
  split
  next heq => rw [h] at heq; cases heq
  next c2 heq =>
    rw [h] at heq
    injection heq with heq2
    subst heq2
    rw [if_neg hnf]

theorem bt_insert_nonfull_full (t : Nat) (k : BTKey) (v : Option α)
    (ks : List BTKey) (vs : List (Option α)) (cs : List (BTreeNode α))
    (c : BTreeNode α) (h : cs.get? (descendIdx k ks) = some c)
    (hf : c.nkeys = 2*t - 1) :
    bt_insert_nonfull t k v (.mk ks vs cs false) =
      if k > (bt_split_child t (.mk ks vs cs false) (descendIdx k ks)).keys.getD
        (descendIdx k ks) 0 then
        .mk (bt_split_child t (.mk ks vs cs false) (descendIdx k ks)).keys
            (bt_split_child t (.mk ks vs cs false) (descendIdx k ks)).values
            ((bt_split_child t (.mk ks vs cs false) (descendIdx k ks)).children.set
              (descendIdx k ks + 1) (bt_insert_nonfull t k v (splitZ t c))) false
      else
        .mk (bt_split_child t (.mk ks vs cs false) (descendIdx k ks)).keys
            (bt_split_child t (.mk ks vs cs false) (descendIdx k ks)).values
            ((bt_split_child t (.mk ks vs cs false) (descendIdx k ks)).children.set
              (descendIdx k ks) (bt_insert_nonfull t k v (splitY t c))) false := by
  rw [bt_insert_nonfull]
  simp only [Bool.false_eq_true, if_false]
  split
  next heq => rw [h] at heq; cases heq
  next c2 heq =>
    rw [h] at heq
    injection heq with heq2
    subst heq2
    rw [if_pos hf]

/-- Stepping past the head entry of an internal node: when `k` exceeds the
first key, the insertion acts on the node with its first entry and first
child removed, and the removed prefix is reattached unchanged. -/
theorem bt_insert_nonfull_cons_gt (t : Nat) (k : BTKey) (v : Option α)
    (a : BTKey) (b : Option α) (c : BTreeNode α) (ks : List BTKey)
    (vs : List (Option α)) (cs : List (BTreeNode α)) (hk : k > a) :
    bt_insert_nonfull t k v (.mk (a :: ks) (b :: vs) (c :: cs) false) =
      .mk (a :: (bt_insert_nonfull t k v (.mk ks vs cs false)).keys)
          (b :: (bt_insert_nonfull t k v (.mk ks vs cs false)).values)
          (c :: (bt_insert_nonfull t k v (.mk ks vs cs false)).children) false := by
  have hidx := descendIdx_cons_gt k a ks hk
  cases hc : cs.get? (descendIdx k ks) with
  | none =>
    have hc2 : (c :: cs).get? (descendIdx k (a :: ks)) = none := by
      rw [hidx, List.get?_cons_succ]
      exact hc
    rw [bt_insert_nonfull_oob t k v _ _ _ hc2, bt_insert_nonfull_oob t k v _ _ _ hc]
    rfl
  | some c2 =>
    have hc2 : (c :: cs).get? (descendIdx k (a :: ks)) = some c2 := by
      rw [hidx, List.get?_cons_succ]
      exact hc
    by_cases hf : c2.nkeys = 2*t - 1
    · rw [bt_insert_nonfull_full t k v _ _ _ c2 hc2 hf,
        bt_insert_nonfull_full t k v _ _ _ c2 hc hf, hidx, bt_split_child_cons]
      simp only [BTreeNode.keys_mk, BTreeNode.values_mk, BTreeNode.children_mk,
        List.getD_cons_succ, List.set_cons_succ, apply_ite BTreeNode.keys,
        apply_ite BTreeNode.values, apply_ite BTreeNode.children, ite_self]
      by_cases hcmp : k > (bt_split_child t (.mk ks vs cs false)
          (descendIdx k ks)).keys.getD (descendIdx k ks) 0
      · rw [if_pos hcmp, if_pos hcmp]
      · rw [if_neg hcmp, if_neg hcmp]
    · rw [bt_insert_nonfull_child t k v _ _ _ c2 hc2 hf,
        bt_insert_nonfull_child t k v _ _ _ c2 hc hf, hidx]
      simp [BTreeNode.keys_mk, BTreeNode.values_mk, BTreeNode.children_mk,
        List.set_cons_succ]


/-! ### Insert correctness -/

/-- The tail of an internal node listing after its first child. -/
def flattenTail : List (BTreeNode α) → List (BTKey × Option α) → List (BTKey × Option α)
  | cs, [] => flattenAux cs []
  | cs, e :: es => e :: flattenAux cs es

theorem flattenAux_cons_eq (c : BTreeNode α) (cs : List (BTreeNode α))
    (es : List (BTKey × Option α)) :
    flattenAux (c :: cs) es = flatten c ++ flattenTail cs es := by
  cases es with
  | nil => rw [flattenAux_cons_nil]; rfl
  | cons e es => rw [flattenAux_cons_cons]; rfl

theorem bt_insert_nonfull_leaf_flag (t : Nat) (k : BTKey) (v : Option α)
    (n : BTreeNode α) : (bt_insert_nonfull t k v n).leaf = n.leaf := by
  obtain ⟨ks, vs, cs, lf⟩ := n
  cases lf with
  | true => rw [bt_insert_nonfull_leaf]; rfl
  | false =>
    cases hc : cs.get? (descendIdx k ks) with
    | none => rw [bt_insert_nonfull_oob t k v _ _ _ hc]
    | some c =>
      by_cases hf : c.nkeys = 2*t - 1
      · rw [bt_insert_nonfull_full t k v _ _ _ c hc hf]
        by_cases hcmp : k > (bt_split_child t (.mk ks vs cs false)
            (descendIdx k ks)).keys.getD (descendIdx k ks) 0
        · rw [if_pos hcmp]
          rfl
        · rw [if_neg hcmp]
          rfl
      · rw [bt_insert_nonfull_child t k v _ _ _ c hc hf]
        rfl

/-- Inserting a fresh key through child 0 (the case where every key of the
node is above `k`): splits of the first child and the recursive insertion
combine to the sorted insertion on the whole listing. -/
theorem insert_child_zero (t : Nat) (ht : 1 ≤ t) (k : BTKey) (v : Option α)
    (ks : List BTKey) (vs : List (Option α)) (c : BTreeNode α)
    (cs : List (BTreeNode α))
    (IH : ∀ m : BTreeNode α, sizeOf m ≤ sizeOf c → btInv m →
      k ∉ keysOf (flatten m) →
      flatten (bt_insert_nonfull t k v m) = insertEntry k v (flatten m) ∧
      shapeB (bt_insert_nonfull t k v m) = true)
    (hi : descendIdx k ks = 0)
    (hlen : vs.length = ks.length)
    (hcs : cs.length = ks.length)
    (hch : ∀ c' ∈ c :: cs, shapeB c' = true)
    (hsorted : sortedKeys (flatten c ++ flattenTail cs (ks.zip vs)))
    (hfresh : k ∉ keysOf (flatten c ++ flattenTail cs (ks.zip vs)))
    (hrest : ∀ x ∈ keysOf (flattenTail cs (ks.zip vs)), k < x) :
    flatten (bt_insert_nonfull t k v (.mk ks vs (c :: cs) false)) =
      insertEntry k v (flatten (.mk ks vs (c :: cs) false)) ∧
    shapeB (bt_insert_nonfull t k v (.mk ks vs (c :: cs) false)) = true := by
  have hget : (c :: cs).get? (descendIdx k ks) = some c := by rw [hi]; rfl
  have hflat : flatten (BTreeNode.mk ks vs (c :: cs) false) =
      flatten c ++ flattenTail cs (ks.zip vs) := by
    rw [flatten_mk, if_neg (by simp), flattenAux_cons_eq]
  rw [keysOf_append, List.mem_append] at hfresh
  push_neg at hfresh
  obtain ⟨hfc, hfT⟩ := hfresh
  have hRHS : insertEntry k v (flatten c ++ flattenTail cs (ks.zip vs)) =
      insertEntry k v (flatten c) ++ flattenTail cs (ks.zip vs) :=
    insertEntry_append_left_all k v _ _ hrest
  obtain ⟨hsc, hsT, hcross⟩ := sortedKeys_append.1 hsorted
  have hinvc : btInv c := ⟨hch c (by simp), hsc⟩
  by_cases hf : c.nkeys = 2*t - 1
  · rw [bt_insert_nonfull_full t k v _ _ _ c hget hf, hi, bt_split_child_zero]
    simp only [BTreeNode.keys_mk, BTreeNode.values_mk, BTreeNode.children_mk,
      List.getD_cons_zero]
    obtain ⟨hparts, hshY, hshZ⟩ := flatten_split_parts t ht c (hch c (by simp)) hf
    obtain ⟨hsY, hsZ, hYmed, hmedZ⟩ := sorted_parts (by rw [hparts]; exact hsc)
    have hfc2 := hfc
    rw [← hparts, keysOf_append, List.mem_append, keysOf_cons, List.mem_cons] at hfc2
    push_neg at hfc2
    have hfY := hfc2.1
    have hkmed := hfc2.2.1
    have hfZ := hfc2.2.2
    by_cases hcmp : k > c.keys.getD (t-1) 0
    · rw [if_pos hcmp]
      rw [show (splitY t c :: splitZ t c :: cs).set (0+1)
          (bt_insert_nonfull t k v (splitZ t c)) =
          splitY t c :: bt_insert_nonfull t k v (splitZ t c) :: cs from rfl]
      obtain ⟨hif, hish⟩ := IH (splitZ t c) (sizeOf_splitZ_le t c) ⟨hshZ, hsZ⟩ hfZ
      have hside : ∀ x ∈ keysOf (flatten (splitY t c) ++
          [(c.keys.getD (t-1) 0, c.values.getD (t-1) none)]), x < k := by
        intro x hx
        rw [keysOf_append, List.mem_append] at hx
        rcases hx with hx | hx
        · exact (hYmed x hx).trans hcmp
        · rw [keysOf_cons, keysOf_nil, List.mem_cons] at hx
          rcases hx with rfl | hx
          · exact hcmp
          · simp at hx
      have hins : insertEntry k v (flatten c) =
          flatten (splitY t c) ++ (c.keys.getD (t-1) 0, c.values.getD (t-1) none) ::
            insertEntry k v (flatten (splitZ t c)) := by
        conv_lhs => rw [← hparts,
          List.append_cons _ (c.keys.getD (t-1) 0, c.values.getD (t-1) none) _]
        rw [insertEntry_append_right k v _ _ hside]
        simp
      constructor
      · rw [flatten_mk, if_neg (by simp), List.zip_cons_cons, flattenAux_cons_cons,
          flattenAux_cons_eq, hif, hflat, hRHS, hins]
        simp
      · refine (shapeB_mk_iff _ _ _ _).2 ⟨by simp [hlen], ?_, ?_⟩
        · rw [if_neg (by simp)]
          simp [hcs]
        · intro c' hc'
          rcases List.mem_cons.1 hc' with rfl | hc2
          · exact hshY
          · rcases List.mem_cons.1 hc2 with rfl | hc3
            · exact hish
            · exact hch c' (by simp [hc3])
    · rw [if_neg hcmp]
      rw [show (splitY t c :: splitZ t c :: cs).set 0
          (bt_insert_nonfull t k v (splitY t c)) =
          bt_insert_nonfull t k v (splitY t c) :: splitZ t c :: cs from rfl]
      have hklt : k < c.keys.getD (t-1) 0 :=
        lt_of_le_of_ne (not_lt.1 hcmp) hkmed
      obtain ⟨hif, hish⟩ := IH (splitY t c) (sizeOf_splitY_le t c) ⟨hshY, hsY⟩ hfY
      constructor
      · rw [flatten_mk, if_neg (by simp), List.zip_cons_cons, flattenAux_cons_cons,
          flattenAux_cons_eq, hif, hflat, hRHS, ← hparts,
          insertEntry_append_left k v _ _ _ _ hklt]
        simp
      · refine (shapeB_mk_iff _ _ _ _).2 ⟨by simp [hlen], ?_, ?_⟩
        · rw [if_neg (by simp)]
          simp [hcs]
        · intro c' hc'
          rcases List.mem_cons.1 hc' with rfl | hc2
          · exact hish
          · rcases List.mem_cons.1 hc2 with rfl | hc3
            · exact hshZ
            · exact hch c' (by simp [hc3])
  · rw [bt_insert_nonfull_child t k v _ _ _ c hget hf, hi]
    rw [show (c :: cs).set 0 (bt_insert_nonfull t k v c) =
        bt_insert_nonfull t k v c :: cs from rfl]
    obtain ⟨hif, hish⟩ := IH c le_rfl hinvc hfc
    constructor
    · rw [flatten_mk, if_neg (by simp), flattenAux_cons_eq, hif, hflat, hRHS]
    · refine (shapeB_mk_iff _ _ _ _).2 ⟨hlen, ?_, ?_⟩
      · rw [if_neg (by simp)]
        simp [hcs]
      · intro c' hc'
        rcases List.mem_cons.1 hc' with rfl | hc2
        · exact hish
        · exact hch c' (by simp [hc2])


/-- `bt_insert_nonfull` with a fresh key realizes sorted insertion on the
in-order listing and preserves structural well-formedness. -/
theorem bt_insert_nonfull_spec (t : Nat) (ht : 1 ≤ t) (k : BTKey) (v : Option α) :
    ∀ n : BTreeNode α, btInv n → k ∉ keysOf (flatten n) →
      flatten (bt_insert_nonfull t k v n) = insertEntry k v (flatten n) ∧
      shapeB (bt_insert_nonfull t k v n) = true := by
  refine BTreeNode.strongRec ?_
  intro n IH hinv hfresh
  obtain ⟨ks, vs, cs, leaf⟩ := n
  obtain ⟨hshape, hsorted⟩ := hinv
  obtain ⟨hlen, hcs, hch⟩ := (shapeB_mk_iff _ _ _ _).1 hshape
  cases leaf with
  | true =>
    rw [if_pos rfl] at hcs
    subst hcs
    rw [flatten_mk, if_pos rfl] at hsorted hfresh ⊢
    rw [bt_insert_nonfull_leaf]
    have hks : List.Pairwise (· < ·) ks := by
      have hm := List.map_fst_zip ks vs (by omega)
      rw [sortedKeys, keysOf, hm] at hsorted
      exact hsorted
    have hknotin : k ∉ ks := by
      rw [keysOf, List.map_fst_zip _ _ (by omega)] at hfresh
      exact hfresh
    obtain ⟨h1, h2, h3⟩ := bt_leaf_insert_fresh k v ks vs hlen hks hknotin
    refine ⟨?_, ?_⟩
    · rw [flatten_mk, if_pos rfl, h3]
    · refine (shapeB_mk_iff _ _ _ _).2 ⟨?_, by simp, by simp⟩
      rw [h1, h2]
      have hd := descendIdx_le k ks
      simp
      omega
  | false =>
    rw [if_neg (by simp)] at hcs
    rw [flatten_mk, if_neg (by simp)] at hsorted hfresh ⊢
    have hsubl : (keysOf (ks.zip vs)).Sublist (keysOf (flattenAux cs (ks.zip vs))) :=
      (flattenAux_sublist cs (ks.zip vs)).map Prod.fst
    have hks : List.Pairwise (· < ·) ks := by
      have h4 : List.Pairwise (· < ·) (keysOf (ks.zip vs)) :=
        List.Pairwise.sublist hsubl hsorted
      rw [keysOf, List.map_fst_zip _ _ (by omega)] at h4
      exact h4
    have hknotin : k ∉ ks := by
      intro hm
      apply hfresh
      apply hsubl.mem
      rw [keysOf, List.map_fst_zip _ _ (by omega)]
      exact hm
    cases ks with
    | nil =>
      cases vs with
      | cons b vs2 => simp at hlen
      | nil =>
        cases cs with
        | nil => simp at hcs
        | cons c cs2 =>
          simp at hcs
          subst hcs
          have hz : descendIdx k ([] : List BTKey) = 0 := by
            simp [descendIdx, suffLen]
          have hsz : sizeOf c <
              sizeOf (BTreeNode.mk ([] : List BTKey) ([] : List (Option α)) [c] false) := by
            simp
            omega
          have hmain := insert_child_zero t ht k v ([] : List BTKey)
            ([] : List (Option α)) c []
            (fun m hm => IH m (lt_of_le_of_lt hm hsz)) hz rfl rfl hch
            (by rw [← flattenAux_cons_eq]; exact hsorted)
            (by rw [← flattenAux_cons_eq]; exact hfresh)
            (by
              intro x hx
              have he : flattenTail ([] : List (BTreeNode α))
                  (([] : List BTKey).zip ([] : List (Option α))) = [] := by
                simp [flattenTail, flattenAux_nil]
              rw [he] at hx
              simp [keysOf] at hx)
          rwa [flatten_mk, if_neg (by simp)] at hmain
    | cons a ks2 =>
      cases vs with
      | nil => simp at hlen
      | cons b vs2 =>
        cases cs with
        | nil => simp at hcs
        | cons c cs2 =>
          have hka : k ≠ a := fun h => hknotin (by simp [h])
          by_cases hgt : k > a
          · rw [bt_insert_nonfull_cons_gt t k v a b c ks2 vs2 cs2 hgt]
            rw [List.zip_cons_cons, flattenAux_cons_cons] at hsorted hfresh ⊢
            obtain ⟨hs1, hs2, hlt1, hgt1⟩ := sorted_parts hsorted
            rw [keysOf_append, List.mem_append, keysOf_cons, List.mem_cons] at hfresh
            push_neg at hfresh
            have hvinv : btInv (BTreeNode.mk ks2 vs2 cs2 false) := by
              refine ⟨(shapeB_mk_iff _ _ _ _).2 ⟨by simpa using hlen, ?_, ?_⟩, ?_⟩
              · simpa using hcs
              · exact fun c' hc' => hch c' (List.mem_cons_of_mem _ hc')
              · rw [flatten_mk, if_neg (by simp)]
                exact hs2
            have hvfresh : k ∉ keysOf (flatten (BTreeNode.mk ks2 vs2 cs2 false)) := by
              rw [flatten_mk, if_neg (by simp)]
              exact hfresh.2.2
            obtain ⟨hif, hish⟩ :=
              IH _ (sizeOf_tail_node a b c ks2 vs2 cs2 false false) hvinv hvfresh
            have hlf := bt_insert_nonfull_leaf_flag t k v (BTreeNode.mk ks2 vs2 cs2 false)
            rw [BTreeNode.leaf_mk] at hlf
            cases hres : bt_insert_nonfull t k v (BTreeNode.mk ks2 vs2 cs2 false) with
            | mk K2 V2 C2 L2 =>
              rw [hres] at hif hish hlf
              rw [BTreeNode.leaf_mk] at hlf
              subst hlf
              rw [flatten_mk, if_neg (by simp), flatten_mk, if_neg (by simp)] at hif
              simp only [BTreeNode.keys_mk, BTreeNode.values_mk, BTreeNode.children_mk]
              obtain ⟨hlen2, hcs2, hch2⟩ := (shapeB_mk_iff _ _ _ _).1 hish
              rw [if_neg (by simp)] at hcs2
              refine ⟨?_, ?_⟩
              · rw [flatten_mk, if_neg (by simp), List.zip_cons_cons,
                  flattenAux_cons_cons, hif]
                have hsideL : ∀ x ∈ keysOf (flatten c ++ [(a, b)]), x < k := by
                  intro x hx
                  rw [keysOf_append, List.mem_append] at hx
                  rcases hx with hx | hx
                  · exact (hlt1 x hx).trans hgt
                  · rw [keysOf_cons, keysOf_nil, List.mem_cons] at hx
                    rcases hx with rfl | hx
                    · exact hgt
                    · simp at hx
                conv_rhs => rw [List.append_cons _ (a, b) _]
                rw [insertEntry_append_right k v _ _ hsideL]
                simp
              · refine (shapeB_mk_iff _ _ _ _).2 ⟨by simp [hlen2], ?_, ?_⟩
                · rw [if_neg (by simp)]
                  simp [hcs2]
                · intro c' hc'
                  rcases List.mem_cons.1 hc' with rfl | hc2
                  · exact hch c' (by simp)
                  · exact hch2 c' hc2
          · have hlt : k < a := lt_of_le_of_ne (not_lt.1 hgt) hka
            rw [List.zip_cons_cons, flattenAux_cons_cons] at hsorted hfresh
            obtain ⟨hs1, hs2, hlt1, hgt1⟩ := sorted_parts hsorted
            have hz : descendIdx k (a :: ks2) = 0 := by
              apply descendIdx_all_gt
              intro x hx
              rcases List.mem_cons.1 hx with rfl | hx2
              · exact hlt
              · exact hlt.trans ((List.pairwise_cons.1 hks).1 x hx2)
            have hsz : sizeOf c <
                sizeOf (BTreeNode.mk (a :: ks2) (b :: vs2) (c :: cs2) false) := by
              have := List.sizeOf_lt_of_mem (show c ∈ c :: cs2 by simp)
              simp at this ⊢
              omega
            have hmain := insert_child_zero t ht k v (a :: ks2) (b :: vs2) c cs2
              (fun m hm => IH m (lt_of_le_of_lt hm hsz)) hz hlen
              (by simpa using hcs) hch hsorted hfresh
              (by
                intro x hx
                rw [show flattenTail cs2 ((a :: ks2).zip (b :: vs2)) =
                  (a, b) :: flattenAux cs2 (ks2.zip vs2) from by
                    rw [List.zip_cons_cons]; rfl] at hx
                rw [keysOf_cons, List.mem_cons] at hx
                rcases hx with rfl | hx2
                · exact hlt
                · exact hlt.trans (hgt1 x hx2))
            rwa [flatten_mk, if_neg (by simp)] at hmain


/-- `bt_insert` (including the preemptive root split) with a fresh key. -/
theorem bt_insert_spec (tr : BTree α) (ht : 1 ≤ tr.t) (k : BTKey) (v : Option α)
    (hinv : btInv tr.root) (hfresh : k ∉ keysOf (flatten tr.root)) :
    (bt_insert tr k v).t = tr.t ∧
    flatten (bt_insert tr k v).root = insertEntry k v (flatten tr.root) ∧
    btInv (bt_insert tr k v).root := by
  obtain ⟨t, root⟩ := tr
  simp only at ht
  rw [bt_insert]
  simp only
  by_cases hfull : root.nkeys = 2*t - 1
  · rw [if_pos hfull]
    rw [bt_split_child_zero]
    obtain ⟨hp, hY, hZ⟩ := flatten_split_parts t ht root hinv.1 hfull
    have hsflat : flatten (BTreeNode.mk [root.keys.getD (t-1) 0]
        [root.values.getD (t-1) none] [splitY t root, splitZ t root] false) =
        flatten root := by
      rw [flatten_mk, if_neg (by simp), List.zip_cons_cons, List.zip_nil_left,
        flattenAux_cons_cons, flattenAux_cons_nil, flattenAux_nil, List.append_nil, hp]
    have hsinv : btInv (BTreeNode.mk [root.keys.getD (t-1) 0]
        [root.values.getD (t-1) none] [splitY t root, splitZ t root] false) := by
      refine ⟨(shapeB_mk_iff _ _ _ _).2 ⟨by simp, by simp, ?_⟩, ?_⟩
      · intro c' hc'
        rcases List.mem_cons.1 hc' with rfl | hc2
        · exact hY
        · rcases List.mem_cons.1 hc2 with rfl | hc3
          · exact hZ
          · simp at hc3
      · rw [hsflat]
        exact hinv.2
    have hfresh2 : k ∉ keysOf (flatten (BTreeNode.mk [root.keys.getD (t-1) 0]
        [root.values.getD (t-1) none] [splitY t root, splitZ t root] false)) := by
      rw [hsflat]
      exact hfresh
    obtain ⟨hif, hish⟩ := bt_insert_nonfull_spec t ht k v _ hsinv hfresh2
    refine ⟨rfl, by rw [hif, hsflat], hish, ?_⟩
    rw [hif, hsflat]
    exact sorted_insertEntry k v _ hinv.2
  · rw [if_neg hfull]
    obtain ⟨hif, hish⟩ := bt_insert_nonfull_spec t ht k v root hinv hfresh
    refine ⟨rfl, hif, hish, ?_⟩
    rw [hif]
    exact sorted_insertEntry k v _ hinv.2

/-! ### Key counting -/

theorem flattenAux_length (cs : List (BTreeNode α)) :
    ∀ es : List (BTKey × Option α), es.length + 1 = cs.length →
      (flattenAux cs es).length =
        (cs.map fun c => (flatten c).length).sum + es.length := by
  induction cs with
  | nil => intro es h; simp at h
  | cons c cs ih =>
    intro es h
    cases es with
    | nil =>
      have hcs0 : cs = [] := by
        cases cs with
        | nil => rfl
        | cons c2 cs2 =>
          rw [List.length_nil, List.length_cons, List.length_cons] at h
          omega
      subst hcs0
      rw [flattenAux_cons_nil, flattenAux_nil]
      simp
    | cons e es =>
      rw [flattenAux_cons_cons]
      simp only [List.length_append, List.length_cons, List.map_cons, List.sum_cons]
      rw [ih es (by simpa using h)]
      omega

theorem bt_count_keys_node_eq (n : BTreeNode α) (hs : shapeB n = true) :
    bt_count_keys_node n = (flatten n).length := by
  induction n using BTreeNode.strongRec with
  | _ n IH =>
    obtain ⟨ks, vs, cs, leaf⟩ := n
    obtain ⟨hlen, hcs, hch⟩ := (shapeB_mk_iff _ _ _ _).1 hs
    rw [bt_count_keys_node, flatten_mk]
    cases leaf with
    | true =>
      rw [if_pos rfl, if_pos rfl]
      simp [hlen]
    | false =>
      rw [if_neg (by simp)] at hcs
      simp only [Bool.false_eq_true, if_false]
      rw [flattenAux_length cs (ks.zip vs) (by rw [List.length_zip]; omega)]
      have hmap : (cs.attach.map fun c => bt_count_keys_node c.1).sum =
          (cs.map fun c => (flatten c).length).sum := by
        rw [List.attach_map_coe]
        congr 1
        apply List.map_congr_left
        intro c hc
        refine IH c ?_ (hch c hc)
        have := List.sizeOf_lt_of_mem hc
        simp
        omega
      rw [hmap]
      simp [hlen]
      omega


/-! ### The range traversal as a fold over its emission list -/

theorem range_transport_all (N : Nat) :
    (∀ {σ : Type} (lo hi : BTKey) (cb : BTKey → Option α → σ → σ)
      (n : BTreeNode α), sizeOf n ≤ N → ∀ (s : σ) (m : Nat),
      bt_range_node lo hi cb n (s, m) =
        ((btEmits lo hi n).foldl (fun s e => cb e.1 e.2 s) s,
          m + btRangeVisits lo hi n)) ∧
    (∀ {σ : Type} (lo hi : BTKey) (cb : BTKey → Option α → σ → σ) (leaf : Bool)
      (es : List (BTKey × Option α)) (cs : List (BTreeNode α)),
      sizeOf cs + es.length ≤ N → ∀ (s : σ) (m : Nat),
      bt_range_go lo hi cb leaf es cs (s, m) =
        ((btEmitsGo lo hi leaf es cs).foldl (fun s e => cb e.1 e.2 s) s,
          m + btGoVisits lo hi leaf es cs)) := by
  induction N using Nat.strong_induction_on with
  | _ N IH =>
    have hgo : ∀ {σ : Type} (lo hi : BTKey) (cb : BTKey → Option α → σ → σ)
        (leaf : Bool) (es : List (BTKey × Option α)) (cs : List (BTreeNode α)),
        sizeOf cs + es.length ≤ N → ∀ (s : σ) (m : Nat),
        bt_range_go lo hi cb leaf es cs (s, m) =
          ((btEmitsGo lo hi leaf es cs).foldl (fun s e => cb e.1 e.2 s) s,
            m + btGoVisits lo hi leaf es cs) := by
      intro σ lo hi cb leaf es cs hmeas s m
      match es, cs with
      | [], [] =>
        rw [bt_range_go, btEmitsGo, btGoVisits]
        simp
      | [], c :: cs2 =>
        rw [bt_range_go, btEmitsGo, btGoVisits]
        cases leaf with
        | true => simp
        | false =>
          simp only [Bool.false_eq_true, if_false]
          have hszc : sizeOf c < N := by
            have : sizeOf c < sizeOf (c :: cs2) := by simp; omega
            simp at hmeas
            omega
          exact (IH (sizeOf c) hszc).1 lo hi cb c le_rfl s m
      | e :: es2, [] =>
        have hm2 : sizeOf ([] : List (BTreeNode α)) + es2.length < N := by
          simp at hmeas ⊢
          omega
        rw [bt_range_go, btEmitsGo, btGoVisits]
        by_cases hhi : e.1 > hi
        · rw [if_pos hhi, if_pos hhi, if_pos hhi]
          by_cases hin : lo ≤ e.1 ∧ e.1 ≤ hi
          · simp [hin]
          · simp [hin]
        · rw [if_neg hhi, if_neg hhi, if_neg hhi]
          by_cases hin : lo ≤ e.1 ∧ e.1 ≤ hi
          · simp only [if_pos hin]
            rw [(IH _ hm2).2 lo hi cb leaf es2 [] le_rfl (cb e.1 e.2 s) m]
            simp
          · simp only [if_neg hin]
            rw [(IH _ hm2).2 lo hi cb leaf es2 [] le_rfl s m]
            simp
      | e :: es2, c :: cs2 =>
        have hszc : sizeOf c < N := by
          have : sizeOf c < sizeOf (c :: cs2) := by simp; omega
          simp at hmeas
          omega
        have hm2 : sizeOf cs2 + es2.length < N := by
          simp at hmeas ⊢
          omega
        have hnode := fun (s : σ) (m : Nat) =>
          (IH (sizeOf c) hszc).1 lo hi cb c le_rfl s m
        have hrec := fun (s : σ) (m : Nat) =>
          (IH _ hm2).2 lo hi cb leaf es2 cs2 le_rfl s m
        rw [bt_range_go, btEmitsGo, btGoVisits]
        by_cases hd : ¬leaf = true ∧ lo ≤ e.1
        · simp only [if_pos hd]
          rw [hnode s m]
          by_cases hhi : e.1 > hi
          · rw [if_pos hhi, if_pos hhi, if_pos hhi]
            have hlf : leaf = false := by
              cases leaf
              · rfl
              · exact absurd rfl hd.1
            subst hlf
            simp only [Bool.false_eq_true, if_false]
            by_cases hin : lo ≤ e.1 ∧ e.1 ≤ hi
            · rw [if_pos hin, hnode _ _]
              refine Prod.ext ?_ ?_
              · simp [List.foldl_append, hin]
              · simp
                omega
            · rw [if_neg hin, hnode _ _]
              refine Prod.ext ?_ ?_
              · simp [List.foldl_append, hin]
              · simp
                omega
          · rw [if_neg hhi, if_neg hhi, if_neg hhi]
            by_cases hin : lo ≤ e.1 ∧ e.1 ≤ hi
            · rw [if_pos hin, hrec _ _]
              refine Prod.ext ?_ ?_
              · simp [List.foldl_append, hin]
              · simp
                omega
            · rw [if_neg hin, hrec _ _]
              refine Prod.ext ?_ ?_
              · simp [List.foldl_append, hin]
              · simp
                omega
        · simp only [if_neg hd]
          by_cases hhi : e.1 > hi
          · rw [if_pos hhi, if_pos hhi, if_pos hhi]
            cases leaf with
            | true =>
              simp only [if_pos rfl]
              by_cases hin : lo ≤ e.1 ∧ e.1 ≤ hi
              · simp [hin]
              · simp [hin]
            | false =>
              simp only [Bool.false_eq_true, if_false]
              by_cases hin : lo ≤ e.1 ∧ e.1 ≤ hi
              · exact absurd hin.1 (by simpa using hd)
              · rw [if_neg hin, hnode s m]
                simp [hin]
          · rw [if_neg hhi, if_neg hhi, if_neg hhi]
            by_cases hin : lo ≤ e.1 ∧ e.1 ≤ hi
            · rw [if_pos hin, hrec _ _]
              refine Prod.ext ?_ ?_
              · simp [List.foldl_append, hin]
              · simp
            · rw [if_neg hin, hrec _ _]
              refine Prod.ext ?_ ?_
              · simp [List.foldl_append, hin]
              · simp
    refine ⟨?_, hgo⟩
    intro σ lo hi cb n hn s m
    obtain ⟨ks, vs, cs, leaf⟩ := n
    have hm : sizeOf cs + (ks.zip vs).length < N := by
      have h1 := length_lt_sizeOf ks
      have h2 : (ks.zip vs).length ≤ ks.length := by
        rw [List.length_zip]
        omega
      simp at hn
      omega
    rw [bt_range_node, btEmits, btRangeVisits,
      hgo lo hi cb leaf (ks.zip vs) cs (le_of_lt hm) s (m+1)]
    refine Prod.ext rfl ?_
    simp
    omega

/-- The traversal with any callback is the fold of that callback over the
emission list; the visit counter advances by `btRangeVisits`. -/
theorem bt_range_transport {σ : Type} (lo hi : BTKey)
    (cb : BTKey → Option α → σ → σ) (n : BTreeNode α) (s : σ) (m : Nat) :
    bt_range_node lo hi cb n (s, m) =
      ((btEmits lo hi n).foldl (fun s e => cb e.1 e.2 s) s,
        m + btRangeVisits lo hi n) :=
  (range_transport_all (sizeOf n)).1 lo hi cb n le_rfl s m


theorem btEmits_bounds_all (N : Nat) :
    (∀ (lo hi : BTKey) (n : BTreeNode α), sizeOf n ≤ N →
      ∀ e ∈ btEmits lo hi n, lo ≤ e.1 ∧ e.1 ≤ hi) ∧
    (∀ (lo hi : BTKey) (leaf : Bool) (es : List (BTKey × Option α))
      (cs : List (BTreeNode α)), sizeOf cs + es.length ≤ N →
      ∀ e ∈ btEmitsGo lo hi leaf es cs, lo ≤ e.1 ∧ e.1 ≤ hi) := by
  induction N using Nat.strong_induction_on with
  | _ N IH =>
    have hgo : ∀ (lo hi : BTKey) (leaf : Bool) (es : List (BTKey × Option α))
        (cs : List (BTreeNode α)), sizeOf cs + es.length ≤ N →
        ∀ e ∈ btEmitsGo lo hi leaf es cs, lo ≤ e.1 ∧ e.1 ≤ hi := by
      intro lo hi leaf es cs hmeas e he
      match es, cs with
      | [], [] =>
        rw [btEmitsGo] at he
        simp at he
      | [], c :: cs2 =>
        rw [btEmitsGo] at he
        cases leaf with
        | true => simp at he
        | false =>
          simp only [Bool.false_eq_true, if_false] at he
          have hszc : sizeOf c < N := by
            have : sizeOf c < sizeOf (c :: cs2) := by simp; omega
            simp at hmeas
            omega
          exact (IH (sizeOf c) hszc).1 lo hi c le_rfl e he
      | e2 :: es2, [] =>
        have hm2 : sizeOf ([] : List (BTreeNode α)) + es2.length < N := by
          simp at hmeas ⊢
          omega
        rw [btEmitsGo] at he
        by_cases hhi : e2.1 > hi
        · rw [if_pos hhi] at he
          by_cases hin : lo ≤ e2.1 ∧ e2.1 ≤ hi
          · rw [if_pos hin] at he
            simp at he
            obtain rfl := he
            exact hin
          · rw [if_neg hin] at he
            simp at he
        · rw [if_neg hhi] at he
          by_cases hin : lo ≤ e2.1 ∧ e2.1 ≤ hi
          · rw [if_pos hin] at he
            rcases List.mem_append.1 he with h2 | h2
            · simp at h2
              obtain rfl := h2
              exact hin
            · exact (IH _ hm2).2 lo hi leaf es2 [] le_rfl e h2
          · rw [if_neg hin, List.nil_append] at he
            exact (IH _ hm2).2 lo hi leaf es2 [] le_rfl e he
      | e2 :: es2, c :: cs2 =>
        have hszc : sizeOf c < N := by
          have : sizeOf c < sizeOf (c :: cs2) := by simp; omega
          simp at hmeas
          omega
        have hm2 : sizeOf cs2 + es2.length < N := by
          simp at hmeas ⊢
          omega
        have hnode := (IH (sizeOf c) hszc).1 lo hi c le_rfl
        have hrec := (IH _ hm2).2 lo hi leaf es2 cs2 le_rfl
        rw [btEmitsGo] at he
        have hl1 : ∀ x ∈ (if ¬leaf = true ∧ lo ≤ e2.1 then btEmits lo hi c else []),
            lo ≤ x.1 ∧ x.1 ≤ hi := by
          intro x hx
          by_cases hd : ¬leaf = true ∧ lo ≤ e2.1
          · rw [if_pos hd] at hx
            exact hnode x hx
          · rw [if_neg hd] at hx
            simp at hx
        have hl2 : ∀ x ∈ (if lo ≤ e2.1 ∧ e2.1 ≤ hi then [e2] else []),
            lo ≤ x.1 ∧ x.1 ≤ hi := by
          intro x hx
          by_cases hin : lo ≤ e2.1 ∧ e2.1 ≤ hi
          · rw [if_pos hin] at hx
            simp at hx
            obtain rfl := hx
            exact hin
          · rw [if_neg hin] at hx
            simp at hx
        by_cases hhi : e2.1 > hi
        · rw [if_pos hhi] at he
          rcases List.mem_append.1 he with h2 | h2
          · rcases List.mem_append.1 h2 with h3 | h3
            · exact hl1 e h3
            · exact hl2 e h3
          · by_cases hlf : leaf = true
            · rw [if_pos hlf] at h2
              simp at h2
            · rw [if_neg hlf] at h2
              exact hnode e h2
        · rw [if_neg hhi] at he
          rcases List.mem_append.1 he with h2 | h2
          · rcases List.mem_append.1 h2 with h3 | h3
            · exact hl1 e h3
            · exact hl2 e h3
          · exact hrec e h2
    refine ⟨?_, hgo⟩
    intro lo hi n hn e he
    obtain ⟨ks, vs, cs, leaf⟩ := n
    have hm : sizeOf cs + (ks.zip vs).length < N := by
      have h1 := length_lt_sizeOf ks
      have h2 : (ks.zip vs).length ≤ ks.length := by
        rw [List.length_zip]
        omega
      simp at hn
      omega
    rw [btEmits] at he
    exact hgo lo hi leaf (ks.zip vs) cs (le_of_lt hm) e he

/-- Every pair emitted by a range traversal lies within `[lo, hi]`. -/
theorem btEmits_bounds (lo hi : BTKey) (n : BTreeNode α) :
    ∀ e ∈ btEmits lo hi n, lo ≤ e.1 ∧ e.1 ≤ hi :=
  (btEmits_bounds_all (sizeOf n)).1 lo hi n le_rfl


theorem btEmits_sound_all (N : Nat) :
    (∀ (lo hi : BTKey) (n : BTreeNode α), sizeOf n ≤ N → shapeB n = true →
      ∀ e ∈ btEmits lo hi n, e ∈ flatten n) ∧
    (∀ (lo hi : BTKey) (leaf : Bool) (es : List (BTKey × Option α))
      (cs : List (BTreeNode α)), sizeOf cs + es.length ≤ N →
      (if leaf then cs = [] else cs.length = es.length + 1) →
      (∀ c ∈ cs, shapeB c = true) →
      ∀ e ∈ btEmitsGo lo hi leaf es cs, e ∈ flattenAux cs es) := by
  induction N using Nat.strong_induction_on with
  | _ N IH =>
    have hgo : ∀ (lo hi : BTKey) (leaf : Bool) (es : List (BTKey × Option α))
        (cs : List (BTreeNode α)), sizeOf cs + es.length ≤ N →
        (if leaf then cs = [] else cs.length = es.length + 1) →
        (∀ c ∈ cs, shapeB c = true) →
        ∀ e ∈ btEmitsGo lo hi leaf es cs, e ∈ flattenAux cs es := by
      intro lo hi leaf es cs hmeas halign hch e he
      match es, cs with
      | [], [] =>
        rw [btEmitsGo] at he
        simp at he
      | [], c :: cs2 =>
        have hlf : leaf = false := by
          cases leaf
          · rfl
          · rw [if_pos rfl] at halign
            cases halign
        subst hlf
        rw [if_neg (by simp)] at halign
        have hcs2 : cs2 = [] := by
          cases cs2 with
          | nil => rfl
          | cons c3 cs3 =>
            rw [List.length_cons, List.length_cons, List.length_nil] at halign
            omega
        subst hcs2
        rw [btEmitsGo] at he
        simp only [Bool.false_eq_true, if_false] at he
        have hszc : sizeOf c < N := by
          simp at hmeas
          omega
        rw [flattenAux_cons_nil, flattenAux_nil]
        exact List.mem_append_left _
          ((IH (sizeOf c) hszc).1 lo hi c le_rfl (hch c (by simp)) e he)
      | e2 :: es2, [] =>
        have hlf : leaf = true := by
          cases leaf
          · rw [if_neg (by simp), List.length_nil] at halign
            omega
          · rfl
        subst hlf
        have hm2 : sizeOf ([] : List (BTreeNode α)) + es2.length < N := by
          simp at hmeas ⊢
          omega
        rw [btEmitsGo] at he
        rw [flattenAux_nil]
        by_cases hhi : e2.1 > hi
        · rw [if_pos hhi] at he
          by_cases hin : lo ≤ e2.1 ∧ e2.1 ≤ hi
          · rw [if_pos hin] at he
            simp at he
            simp [he]
          · rw [if_neg hin] at he
            simp at he
        · rw [if_neg hhi] at he
          by_cases hin : lo ≤ e2.1 ∧ e2.1 ≤ hi
          · rw [if_pos hin] at he
            rcases List.mem_append.1 he with h2 | h2
            · simp at h2
              simp [h2]
            · have := (IH _ hm2).2 lo hi true es2 [] le_rfl (by simp)
                (by simp) e h2
              rw [flattenAux_nil] at this
              exact List.mem_cons_of_mem _ this
          · rw [if_neg hin, List.nil_append] at he
            have := (IH _ hm2).2 lo hi true es2 [] le_rfl (by simp)
              (by simp) e he
            rw [flattenAux_nil] at this
            exact List.mem_cons_of_mem _ this
      | e2 :: es2, c :: cs2 =>
        have hlf : leaf = false := by
          cases leaf
          · rfl
          · rw [if_pos rfl] at halign
            cases halign
        subst hlf
        rw [if_neg (by simp)] at halign
        have halign2 : cs2.length = es2.length + 1 := by
          rw [List.length_cons, List.length_cons] at halign
          omega
        have hszc : sizeOf c < N := by
          have : sizeOf c < sizeOf (c :: cs2) := by simp; omega
          simp at hmeas
          omega
        have hm2 : sizeOf cs2 + es2.length < N := by
          simp at hmeas ⊢
          omega
        have hnode := (IH (sizeOf c) hszc).1 lo hi c le_rfl (hch c (by simp))
        have hrec := (IH _ hm2).2 lo hi false es2 cs2 le_rfl (by simpa using halign2)
          (fun c2 hc2 => hch c2 (by simp [hc2]))
        rw [btEmitsGo] at he
        rw [flattenAux_cons_cons]
        have hl1 : ∀ x ∈ (if ¬false = true ∧ lo ≤ e2.1 then btEmits lo hi c else []),
            x ∈ flatten c := by
          intro x hx
          by_cases hd : ¬false = true ∧ lo ≤ e2.1
          · rw [if_pos hd] at hx
            exact hnode x hx
          · rw [if_neg hd] at hx
            simp at hx
        have hl2 : ∀ x ∈ (if lo ≤ e2.1 ∧ e2.1 ≤ hi then [e2] else []),
            x = e2 := by
          intro x hx
          by_cases hin : lo ≤ e2.1 ∧ e2.1 ≤ hi
          · rw [if_pos hin] at hx
            simpa using hx
          · rw [if_neg hin] at hx
            simp at hx
        by_cases hhi : e2.1 > hi
        · rw [if_pos hhi] at he
          rcases List.mem_append.1 he with h2 | h2
          · rcases List.mem_append.1 h2 with h3 | h3
            · exact List.mem_append_left _ (hl1 e h3)
            · rw [hl2 e h3]
              simp
          · simp only [Bool.false_eq_true, if_false] at h2
            exact List.mem_append_left _ (hnode e h2)
        · rw [if_neg hhi] at he
          rcases List.mem_append.1 he with h2 | h2
          · rcases List.mem_append.1 h2 with h3 | h3
            · exact List.mem_append_left _ (hl1 e h3)
            · rw [hl2 e h3]
              simp
          · exact List.mem_append_right _ (List.mem_cons_of_mem _ (hrec e h2))
    refine ⟨?_, hgo⟩
    intro lo hi n hn hshape e he
    obtain ⟨ks, vs, cs, leaf⟩ := n
    obtain ⟨hlen, hcs, hch⟩ := (shapeB_mk_iff _ _ _ _).1 hshape
    have hm : sizeOf cs + (ks.zip vs).length < N := by
      have h1 := length_lt_sizeOf ks
      have h2 : (ks.zip vs).length ≤ ks.length := by
        rw [List.length_zip]
        omega
      simp at hn
      omega
    rw [btEmits] at he
    have halign : if leaf then cs = [] else cs.length = (ks.zip vs).length + 1 := by
      cases leaf with
      | true => rw [if_pos rfl] at hcs ⊢; exact hcs
      | false =>
        rw [if_neg (by simp)] at hcs ⊢
        rw [List.length_zip]
        omega
    have := hgo lo hi leaf (ks.zip vs) cs (le_of_lt hm) halign hch e he
    rw [flatten_mk]
    cases leaf with
    | true =>
      rw [if_pos rfl] at halign
      subst halign
      rw [flattenAux_nil] at this
      rw [if_pos rfl]
      exact this
    | false =>
      rw [if_neg (by simp)]
      exact this

/-- Every pair emitted by a range traversal is stored in the tree. -/
theorem btEmits_sound (lo hi : BTKey) (n : BTreeNode α) (hshape : shapeB n = true) :
    ∀ e ∈ btEmits lo hi n, e ∈ flatten n :=
  (btEmits_sound_all (sizeOf n)).1 lo hi n le_rfl hshape


theorem btEmits_complete_all (N : Nat) :
    (∀ (lo hi : BTKey) (n : BTreeNode α), sizeOf n ≤ N → btInv n →
      ∀ k, k ∈ keysOf (flatten n) → lo ≤ k → k ≤ hi →
        k ∈ keysOf (btEmits lo hi n)) ∧
    (∀ (lo hi : BTKey) (leaf : Bool) (es : List (BTKey × Option α))
      (cs : List (BTreeNode α)), sizeOf cs + es.length ≤ N →
      (if leaf then cs = [] else cs.length = es.length + 1) →
      (∀ c ∈ cs, shapeB c = true) →
      sortedKeys (flattenAux cs es) →
      ∀ k, k ∈ keysOf (flattenAux cs es) → lo ≤ k → k ≤ hi →
        k ∈ keysOf (btEmitsGo lo hi leaf es cs)) := by
  induction N using Nat.strong_induction_on with
  | _ N IH =>
    have hgo : ∀ (lo hi : BTKey) (leaf : Bool) (es : List (BTKey × Option α))
        (cs : List (BTreeNode α)), sizeOf cs + es.length ≤ N →
        (if leaf then cs = [] else cs.length = es.length + 1) →
        (∀ c ∈ cs, shapeB c = true) →
        sortedKeys (flattenAux cs es) →
        ∀ k, k ∈ keysOf (flattenAux cs es) → lo ≤ k → k ≤ hi →
          k ∈ keysOf (btEmitsGo lo hi leaf es cs) := by
      intro lo hi leaf es cs hmeas halign hch hsorted k hk hlo hhik
      match es, cs with
      | [], [] =>
        rw [flattenAux_nil] at hk
        simp [keysOf] at hk
      | [], c :: cs2 =>
        have hlf : leaf = false := by
          cases leaf
          · rfl
          · rw [if_pos rfl] at halign
            cases halign
        subst hlf
        rw [if_neg (by simp)] at halign
        have hcs2 : cs2 = [] := by
          cases cs2 with
          | nil => rfl
          | cons c3 cs3 =>
            rw [List.length_cons, List.length_cons, List.length_nil] at halign
            omega
        subst hcs2
        rw [flattenAux_cons_nil, flattenAux_nil, List.append_nil] at hk hsorted
        have hszc : sizeOf c < N := by
          simp at hmeas
          omega
        rw [btEmitsGo]
        simp only [Bool.false_eq_true, if_false]
        exact (IH (sizeOf c) hszc).1 lo hi c le_rfl
          ⟨hch c (by simp), hsorted⟩ k hk hlo hhik
      | e2 :: es2, [] =>
        have hlf : leaf = true := by
          cases leaf
          · rw [if_neg (by simp), List.length_nil] at halign
            omega
          · rfl
        subst hlf
        have hm2 : sizeOf ([] : List (BTreeNode α)) + es2.length < N := by
          simp at hmeas ⊢
          omega
        rw [flattenAux_nil] at hk hsorted
        have hpair := sortedKeys_cons.1 hsorted
        rw [keysOf_cons] at hk
        rw [btEmitsGo]
        rcases List.mem_cons.1 hk with hkh | hkt
        · subst hkh
          have hnhi : ¬ e2.1 > hi := not_lt.2 hhik
          rw [if_neg hnhi, if_pos ⟨hlo, hhik⟩, keysOf_append]
          apply List.mem_append_left
          simp [keysOf]
        · have hgt : e2.1 < k := hpair.1 k hkt
          have hnhi : ¬ e2.1 > hi := not_lt.2 (le_of_lt (lt_of_lt_of_le hgt hhik))
          rw [if_neg hnhi, keysOf_append]
          apply List.mem_append_right
          have := (IH _ hm2).2 lo hi true es2 [] le_rfl (by simp) (by simp)
            (by rw [flattenAux_nil]; exact hpair.2) k
            (by rw [flattenAux_nil]; exact hkt) hlo hhik
          exact this
      | e2 :: es2, c :: cs2 =>
        have hlf : leaf = false := by
          cases leaf
          · rfl
          · rw [if_pos rfl] at halign
            cases halign
        subst hlf
        rw [if_neg (by simp)] at halign
        have halign2 : cs2.length = es2.length + 1 := by
          rw [List.length_cons, List.length_cons] at halign
          omega
        have hszc : sizeOf c < N := by
          have : sizeOf c < sizeOf (c :: cs2) := by simp; omega
          simp at hmeas
          omega
        have hm2 : sizeOf cs2 + es2.length < N := by
          simp at hmeas ⊢
          omega
        rw [flattenAux_cons_cons] at hk hsorted
        have hsp := sortedKeys_append.1 hsorted
        have hsc : sortedKeys (flatten c) := hsp.1
        have hcons := sortedKeys_cons.1 hsp.2.1
        have hcross : ∀ x ∈ keysOf (flatten c), x < e2.1 := by
          intro x hx
          exact hsp.2.2 x hx e2.1 (by rw [keysOf_cons]; exact List.mem_cons_self _ _)
        rw [keysOf_append, keysOf_cons] at hk
        rw [btEmitsGo]
        rcases List.mem_append.1 hk with hkl | hkr
        · have hklt : k < e2.1 := hcross k hkl
          have hd : ¬false = true ∧ lo ≤ e2.1 := ⟨by simp, le_of_lt (lt_of_le_of_lt hlo hklt)⟩
          have hmem : k ∈ keysOf (btEmits lo hi c) :=
            (IH (sizeOf c) hszc).1 lo hi c le_rfl ⟨hch c (by simp), hsc⟩ k hkl hlo hhik
          by_cases hhi : e2.1 > hi
          · rw [if_pos hhi, keysOf_append, keysOf_append, if_pos hd]
            exact List.mem_append_left _ (List.mem_append_left _ hmem)
          · rw [if_neg hhi, keysOf_append, keysOf_append, if_pos hd]
            exact List.mem_append_left _ (List.mem_append_left _ hmem)
        · rcases List.mem_cons.1 hkr with hkh | hkt
          · subst hkh
            have hnhi : ¬ e2.1 > hi := not_lt.2 hhik
            have hd : ¬false = true ∧ lo ≤ e2.1 := ⟨by simp, hlo⟩
            rw [if_neg hnhi, if_pos hd, if_pos ⟨hlo, hhik⟩, keysOf_append, keysOf_append]
            apply List.mem_append_left
            apply List.mem_append_right
            simp [keysOf]
          · have hgt : e2.1 < k := hcons.1 k hkt
            have hnhi : ¬ e2.1 > hi := not_lt.2 (le_of_lt (lt_of_lt_of_le hgt hhik))
            rw [if_neg hnhi, keysOf_append]
            apply List.mem_append_right
            exact (IH _ hm2).2 lo hi false es2 cs2 le_rfl (by simpa using halign2)
              (fun c2 hc2 => hch c2 (by simp [hc2])) hcons.2 k hkt hlo hhik
    refine ⟨?_, hgo⟩
    intro lo hi n hn hinv k hk hlo hhik
    obtain ⟨ks, vs, cs, leaf⟩ := n
    obtain ⟨hlen, hcs, hch⟩ := (shapeB_mk_iff _ _ _ _).1 hinv.1
    have hsorted := hinv.2
    rw [flatten_mk] at hsorted hk
    have hm : sizeOf cs + (ks.zip vs).length < N := by
      have h1 := length_lt_sizeOf ks
      have h2 : (ks.zip vs).length ≤ ks.length := by
        rw [List.length_zip]
        omega
      simp at hn
      omega
    rw [btEmits]
    have halign : if leaf then cs = [] else cs.length = (ks.zip vs).length + 1 := by
      cases leaf with
      | true => rw [if_pos rfl] at hcs ⊢; exact hcs
      | false =>
        rw [if_neg (by simp)] at hcs ⊢
        rw [List.length_zip]
        omega
    cases leaf with
    | true =>
      rw [if_pos rfl] at hsorted hk halign
      subst halign
      exact hgo lo hi true (ks.zip vs) [] (le_of_lt (by simpa using hm))
        (by simp) (by simp) (by rw [flattenAux_nil]; exact hsorted) k
        (by rw [flattenAux_nil]; exact hk) hlo hhik
    | false =>
      rw [if_neg (by simp)] at hsorted hk
      exact hgo lo hi false (ks.zip vs) cs (le_of_lt hm) halign hch hsorted
        k hk hlo hhik

/-- Every stored key within `[lo, hi]` appears among the emitted keys. -/
theorem btEmits_complete (lo hi : BTKey) (n : BTreeNode α) (hinv : btInv n) :
    ∀ k ∈ keysOf (flatten n), lo ≤ k → k ≤ hi → k ∈ keysOf (btEmits lo hi n) :=
  fun k hk => (btEmits_complete_all (sizeOf n)).1 lo hi n le_rfl hinv k hk



theorem mem_keysOf_insertEntry (k x : BTKey) (v : Option α)
    (l : List (BTKey × Option α)) :
    x ∈ keysOf (insertEntry k v l) ↔ x = k ∨ x ∈ keysOf l := by
  induction l with
  | nil => simp [insertEntry, keysOf]
  | cons e es ih =>
    by_cases h1 : k < e.1
    · simp [insertEntry, h1, keysOf_cons]
    · by_cases h2 : k = e.1
      · subst h2
        simp [insertEntry, h1, keysOf_cons]
      · simp only [insertEntry, if_neg h1, if_neg h2, keysOf_cons, List.mem_cons, ih]
        tauto


theorem mem_insertEntry {e : BTKey × Option α} (k : BTKey) (v : Option α)
    (l : List (BTKey × Option α)) (h : e ∈ insertEntry k v l) :
    e = (k, v) ∨ e ∈ l := by
  induction l with
  | nil => simpa [insertEntry] using h
  | cons e2 es ih =>
    by_cases h1 : k < e2.1
    · rw [insertEntry, if_pos h1] at h
      exact List.mem_cons.1 h
    · by_cases h2 : k = e2.1
      · rw [insertEntry, if_neg h1, if_pos h2] at h
        rcases List.mem_cons.1 h with h3 | h3
        · exact Or.inl h3
        · exact Or.inr (List.mem_cons_of_mem _ h3)
      · rw [insertEntry, if_neg h1, if_neg h2] at h
        rcases List.mem_cons.1 h with h3 | h3
        · exact Or.inr (h3 ▸ List.mem_cons_self e2 es)
        · rcases ih h3 with h4 | h4
          · exact Or.inl h4
          · exact Or.inr (List.mem_cons_of_mem _ h4)

/-- On a tree whose stored payloads are all non-null, a `NULL` search result
means the key is absent. -/
theorem search_none_fresh (k : BTKey) (n : BTreeNode α) (hinv : btInv n)
    (hsome : ∀ e ∈ flatten n, e.2.isSome)
    (h : (bt_search_node k n).1 = none) : k ∉ keysOf (flatten n) := by
  rw [bt_search_node_flatten k n hinv] at h
  intro hk
  match hf : entriesFind k (flatten n) with
  | none => exact (entriesFind_eq_none k (flatten n)).1 hf hk
  | some p =>
    rw [hf] at h
    simp only [Option.getD_some] at h
    subst h
    have := hsome _ (entriesFind_mem hf)
    simp at this

/-! ### Frame lemmas for the hot/cold layer -/

theorem bt_insert_t (tr : BTree α) (k : BTKey) (v : Option α) :
    (bt_insert tr k v).t = tr.t := by
  rw [bt_insert]
  split <;> rfl

theorem maybe_promote_frame (idx : HCIndex α) (k : BTKey) :
    (maybe_promote idx k).cold = idx.cold ∧
    (maybe_promote idx k).max_key = idx.max_key ∧
    (maybe_promote idx k).hit_score = idx.hit_score ∧
    (maybe_promote idx k).params = idx.params ∧
    (maybe_promote idx k).stats = idx.stats ∧
    (maybe_promote idx k).hot.t = idx.hot.t := by
  simp only [maybe_promote]
  split
  · exact ⟨rfl, rfl, rfl, rfl, rfl, rfl⟩
  split
  · exact ⟨rfl, rfl, rfl, rfl, rfl, rfl⟩
  split
  · exact ⟨rfl, rfl, rfl, rfl, rfl, rfl⟩
  split
  · exact ⟨rfl, rfl, rfl, rfl, rfl, rfl⟩
  exact ⟨rfl, rfl, rfl, rfl, rfl, bt_insert_t _ _ _⟩

/-- `maybe_promote` either leaves `hot` unchanged or, when every guard of the
promotion path passes, inserts the cold payload of `k` into `hot`. -/
theorem maybe_promote_hot_cases (idx : HCIndex α) (k : BTKey) :
    (maybe_promote idx k).hot = idx.hot ∨
    (idx.params.inclusive = true ∧
     ((bt_count_keys idx.hot : ℚ) <
        idx.params.max_hot_fraction * (((idx.max_key + 1).toNat : ℚ))) ∧
     (bt_search idx.hot k).1 = none ∧
     ((bt_search idx.cold k).1).isSome = true ∧
     (maybe_promote idx k).hot = bt_insert idx.hot k (bt_search idx.cold k).1) := by
  simp only [maybe_promote]
  split
  · exact Or.inl rfl
  next hincl =>
  split
  · exact Or.inl rfl
  next hcap =>
  split
  · exact Or.inl rfl
  next hex =>
  split
  · exact Or.inl rfl
  next hv =>
  refine Or.inr ⟨?_, ?_, ?_, ?_, rfl⟩
  · cases h : idx.params.inclusive
    · exact absurd h hincl
    · rfl
  · exact lt_of_not_ge hcap
  · cases h : (bt_search idx.hot k).1
    · rfl
    · rw [h] at hex
      simp at hex
  · cases h : ((bt_search idx.cold k).1).isSome
    · rw [h] at hv
      simp at hv
    · rfl

theorem hc_search_frame (idx : HCIndex α) (k : BTKey) :
    (hc_search idx k).1.cold = idx.cold ∧
    (hc_search idx k).1.max_key = idx.max_key ∧
    (hc_search idx k).1.params = idx.params ∧
    (hc_search idx k).1.hot.t = idx.hot.t := by
  simp only [hc_search]
  split
  · split
    · exact ⟨rfl, rfl, rfl, rfl⟩
    · exact ⟨rfl, rfl, rfl, rfl⟩
  split
  · split
    · split
      · exact ⟨(maybe_promote_frame _ k).1, (maybe_promote_frame _ k).2.1,
          (maybe_promote_frame _ k).2.2.2.1, (maybe_promote_frame _ k).2.2.2.2.2⟩
      · exact ⟨rfl, rfl, rfl, rfl⟩
    · exact ⟨rfl, rfl, rfl, rfl⟩
  exact ⟨rfl, rfl, rfl, rfl⟩

theorem hc_range_search_frame (idx : HCIndex α) (lo hi : BTKey) :
    (hc_range_search idx lo hi).1.hot = idx.hot ∧
    (hc_range_search idx lo hi).1.cold = idx.cold ∧
    (hc_range_search idx lo hi).1.max_key = idx.max_key ∧
    (hc_range_search idx lo hi).1.hit_score = idx.hit_score ∧
    (hc_range_search idx lo hi).1.params = idx.params := by
  rw [hc_range_search]
  exact ⟨rfl, rfl, rfl, rfl, rfl⟩



theorem maybe_promote_stats (idx : HCIndex α) (k : BTKey) :
    (maybe_promote idx k).stats = idx.stats :=
  (maybe_promote_frame idx k).2.2.2.2.1

/-- `maybe_promote_hot_cases` stated through an index that agrees with `idx0`
on the fields `maybe_promote` reads. -/
theorem maybe_promote_hot_cases_of (idx0 idx : HCIndex α) (k : BTKey)
    (hh : idx.hot = idx0.hot) (hc : idx.cold = idx0.cold)
    (hm : idx.max_key = idx0.max_key) (hp : idx.params = idx0.params) :
    (maybe_promote idx k).hot = idx0.hot ∨
    (((bt_count_keys idx0.hot : ℚ) <
        idx0.params.max_hot_fraction * (((idx0.max_key + 1).toNat : ℚ))) ∧
     (bt_search idx0.hot k).1 = none ∧
     ((bt_search idx0.cold k).1).isSome = true ∧
     (maybe_promote idx k).hot = bt_insert idx0.hot k (bt_search idx0.cold k).1) := by
  have h := maybe_promote_hot_cases idx k
  rw [hh, hc, hm, hp] at h
  rcases h with h | h
  · exact Or.inl h
  · exact Or.inr ⟨h.2.1, h.2.2.1, h.2.2.2.1, h.2.2.2.2⟩

/-- `hc_search` either leaves `hot` unchanged or promotes the searched key:
inserting its (non-null) cold payload into a below-capacity hot tree in which
the probe had just returned `NULL`. -/
theorem hc_search_hot_cases (idx : HCIndex α) (k : BTKey) :
    (hc_search idx k).1.hot = idx.hot ∨
    (((bt_count_keys idx.hot : ℚ) <
        idx.params.max_hot_fraction * (((idx.max_key + 1).toNat : ℚ))) ∧
     (bt_search idx.hot k).1 = none ∧
     ((bt_search idx.cold k).1).isSome = true ∧
     (hc_search idx k).1.hot = bt_insert idx.hot k (bt_search idx.cold k).1) := by
  simp only [hc_search]
  split
  · split
    · exact Or.inl rfl
    · exact Or.inl rfl
  split
  · split
    · split
      · exact maybe_promote_hot_cases_of idx _ k rfl rfl rfl rfl
      · exact Or.inl rfl
    · exact Or.inl rfl
  · exact Or.inl rfl

/-- The statistics of a search: `queries` increments, the hot counter gains
exactly the hot-probe visits, and the cold counter gains the cold-probe
visits only on a hot miss. -/
theorem hc_search_stats (idx : HCIndex α) (k : BTKey) :
    (hc_search idx k).1.stats.queries = idx.stats.queries + 1 ∧
    (hc_search idx k).1.stats.hot_node_visits
      = idx.stats.hot_node_visits + (bt_search idx.hot k).2 ∧
    (hc_search idx k).1.stats.cold_node_visits
      = idx.stats.cold_node_visits +
        (if ((bt_search idx.hot k).1).isSome then 0 else (bt_search idx.cold k).2) := by
  simp only [hc_search]
  split
  · split
    · exact ⟨rfl, rfl, by simp⟩
    · exact ⟨rfl, rfl, by simp⟩
  · split
    · split
      · split
        · rw [maybe_promote_stats]
          exact ⟨rfl, rfl, rfl⟩
        · exact ⟨rfl, rfl, rfl⟩
      · exact ⟨rfl, rfl, rfl⟩
    · exact ⟨rfl, rfl, rfl⟩


/-- The hot-tier invariant maintained by every public operation: the tracked
configuration fields are constant, the hot tree is well formed, every hot
payload is non-null, and the key count respects the ceiling of
`max_hot_fraction * (max_key + 1)`. -/
abbrev HotOK (d : Nat) (mk : BTKey) (p : HCParams) (idx : HCIndex α) : Prop :=
  idx.max_key = mk ∧ idx.params = p ∧ idx.hot.t = d ∧
  btInv idx.hot.root ∧
  (∀ e ∈ flatten idx.hot.root, e.2.isSome = true) ∧
  ((bt_count_keys idx.hot : ℤ) ≤ ⌈p.max_hot_fraction * (((mk + 1).toNat : ℚ))⌉)

theorem btInv_emptyLeaf : btInv (emptyLeaf : BTreeNode α) := by
  constructor
  · rw [emptyLeaf, shapeB]
    simp
  · rw [emptyLeaf, flatten]
    simp only [if_pos rfl, List.zip_nil_left]
    exact sortedKeys_nil

theorem flatten_emptyLeaf : flatten (emptyLeaf : BTreeNode α) = [] := by
  rw [emptyLeaf, flatten]
  simp

theorem hc_create_HotOK (d : Nat) (mk : BTKey) (p : HCParams)
    (hfrac : 0 ≤ p.max_hot_fraction) :
    HotOK d mk p (hc_create mk d p : HCIndex α) := by
  refine ⟨rfl, rfl, rfl, btInv_emptyLeaf, ?_, ?_⟩
  · rw [hc_create]
    simp only [bt_create]
    rw [flatten_emptyLeaf]
    simp
  · rw [hc_create]
    simp only [bt_create, bt_count_keys]
    rw [emptyLeaf, bt_count_keys_node]
    simp only [List.length_nil, if_pos rfl, Nat.add_zero, Nat.cast_zero]
    refine Int.ceil_nonneg ?_
    positivity

theorem hcStep_HotOK (d : Nat) (mk : BTKey) (p : HCParams) (hd : 1 ≤ d)
    (idx : HCIndex α) (op : HCOp α) (h : HotOK d mk p idx) :
    HotOK d mk p (hcStep idx op) := by
  obtain ⟨hmk, hp, ht, hinv, hsome, hcap⟩ := h
  cases op with
  | ins k v =>
    simp only [hcStep, hc_insert]
    split
    · exact ⟨hmk, hp, ht, hinv, hsome, hcap⟩
    · exact ⟨hmk, hp, ht, hinv, hsome, hcap⟩
  | rng lo hi =>
    simp only [hcStep, hc_range_search]
    exact ⟨hmk, hp, ht, hinv, hsome, hcap⟩
  | sea k =>
    simp only [hcStep]
    have hf := hc_search_frame idx k
    rcases hc_search_hot_cases idx k with hh | ⟨hlt, hnone, hsome2, hh⟩
    · refine ⟨hf.2.1.trans hmk, hf.2.2.1.trans hp, hf.2.2.2.trans ht, ?_, ?_, ?_⟩
      · rw [hh]
        exact hinv
      · rw [hh]
        exact hsome
      · rw [hh]
        exact hcap
    · have hfresh : k ∉ keysOf (flatten idx.hot.root) :=
        search_none_fresh k idx.hot.root hinv hsome hnone
      have htpos : 1 ≤ idx.hot.t := by rw [ht]; exact hd
      have hins := bt_insert_spec idx.hot htpos k (bt_search idx.cold k).1 hinv hfresh
      refine ⟨hf.2.1.trans hmk, hf.2.2.1.trans hp, ?_, ?_, ?_, ?_⟩
      · rw [hh, bt_insert_t]
        exact ht
      · rw [hh]
        exact hins.2.2
      · rw [hh]
        intro e he
        rw [hins.2.1] at he
        rcases mem_insertEntry k (bt_search idx.cold k).1 _ he with h2 | h2
        · rw [h2]
          exact hsome2
        · exact hsome e h2
      · rw [hh]
        have hshape : shapeB (bt_insert idx.hot k (bt_search idx.cold k).1).root = true :=
          hins.2.2.1
        have hcount : bt_count_keys (bt_insert idx.hot k (bt_search idx.cold k).1)
            = bt_count_keys idx.hot + 1 := by
          rw [bt_count_keys, bt_count_keys_node_eq _ hshape, hins.2.1,
            insertEntry_length k _ _ hfresh, bt_count_keys,
            bt_count_keys_node_eq _ hinv.1]
        rw [hcount]
        rw [hmk, hp] at hlt
        have hceil : (bt_count_keys idx.hot : ℤ) <
            ⌈p.max_hot_fraction * (((mk + 1).toNat : ℚ))⌉ := by
          rw [Int.lt_ceil]
          push_cast
          exact hlt
        push_cast
        omega

theorem hcRun_HotOK (d : Nat) (mk : BTKey) (p : HCParams) (hd : 1 ≤ d)
    (hfrac : 0 ≤ p.max_hot_fraction) (ops : List (HCOp α)) :
    HotOK d mk p (hcRun (hc_create mk d p) ops) := by
  rw [hcRun]
  have h0 := hc_create_HotOK (α := α) d mk p hfrac
  generalize hc_create mk d p = idx0 at h0
  induction ops generalizing idx0 with
  | nil => exact h0
  | cons op ops ih =>
    rw [List.foldl_cons]
    exact ih _ (hcStep_HotOK d mk p hd idx0 op h0)


theorem bt_search_node_emptyLeaf (k : BTKey) :
    bt_search_node k (emptyLeaf : BTreeNode α) = (none, 1) := by
  rw [emptyLeaf, bt_search_node]
  simp [lowerIdx]

/-- When the hot probe misses, the value a search returns is exactly the cold
probe result (non-null payloads are returned as hits, a null payload falls
through to the not-found branch, which also returns `NULL`). -/
theorem hc_search_val (idx : HCIndex α) (k : BTKey)
    (hhot : (bt_search idx.hot k).1 = none) :
    (hc_search idx k).2 = (bt_search idx.cold k).1 := by
  simp only [hc_search]
  split
  · next h =>
    rw [hhot] at h
    simp at h
  · split
    · next h =>
      split
      · rfl
      · rfl
    · next h =>
      cases h2 : (bt_search idx.cold k).1
      · rfl
      · rw [h2] at h
        simp at h

/-- A run consisting only of in-range inserts writes the cold tree by a fold
of `bt_insert` and changes nothing else. -/
theorem hcRun_ins_only (idx : HCIndex α) (ps : List (BTKey × Option α))
    (hin : ∀ p ∈ ps, ¬(p.1 < 0 ∨ p.1 > idx.max_key)) :
    hcRun idx (ps.map fun p => HCOp.ins p.1 p.2) =
      { idx with cold := ps.foldl (fun tr p => bt_insert tr p.1 p.2) idx.cold } := by
  induction ps generalizing idx with
  | nil => rfl
  | cons p ps ih =>
    simp only [hcRun, List.map_cons, List.foldl_cons]
    have hstep : hcStep idx (HCOp.ins p.1 p.2)
        = { idx with cold := bt_insert idx.cold p.1 p.2 } := by
      simp only [hcStep, hc_insert]
      rw [if_neg (hin p (List.mem_cons_self _ _))]
    rw [hstep]
    have := ih { idx with cold := bt_insert idx.cold p.1 p.2 }
      (fun q hq => hin q (List.mem_cons_of_mem _ hq))
    rw [hcRun] at this
    exact this

/-- Folding distinct fresh inserts into a well-formed tree: the tree stays
well formed, gains exactly the new entries, and the stored payload of every
inserted key is the one inserted for it. -/
theorem bt_insert_foldl (tr : BTree α) (ht : 1 ≤ tr.t)
    (ps : List (BTKey × Option α)) (hinv : btInv tr.root)
    (hnd : (ps.map Prod.fst).Nodup)
    (hfresh : ∀ p ∈ ps, p.1 ∉ keysOf (flatten tr.root)) :
    (ps.foldl (fun tr2 p => bt_insert tr2 p.1 p.2) tr).t = tr.t ∧
    btInv (ps.foldl (fun tr2 p => bt_insert tr2 p.1 p.2) tr).root ∧
    (flatten (ps.foldl (fun tr2 p => bt_insert tr2 p.1 p.2) tr).root).length
      = (flatten tr.root).length + ps.length ∧
    (∀ p ∈ ps, entriesFind p.1
        (flatten (ps.foldl (fun tr2 p => bt_insert tr2 p.1 p.2) tr).root) = some p.2) ∧
    (∀ k, k ∉ ps.map Prod.fst → entriesFind k
        (flatten (ps.foldl (fun tr2 p => bt_insert tr2 p.1 p.2) tr).root)
          = entriesFind k (flatten tr.root)) := by
  induction ps generalizing tr with
  | nil => exact ⟨rfl, hinv, by simp, by simp, fun k _ => rfl⟩
  | cons p ps ih =>
    rw [List.map_cons, List.nodup_cons] at hnd
    have hfr : p.1 ∉ keysOf (flatten tr.root) := hfresh p (List.mem_cons_self _ _)
    have hins := bt_insert_spec tr ht p.1 p.2 hinv hfr
    have hfresh2 : ∀ q ∈ ps, q.1 ∉ keysOf (flatten (bt_insert tr p.1 p.2).root) := by
      intro q hq hk
      rw [hins.2.1] at hk
      rcases (mem_keysOf_insertEntry p.1 q.1 p.2 _).1 hk with h2 | h2
      · exact hnd.1 (h2 ▸ List.mem_map_of_mem Prod.fst hq)
      · exact hfresh q (List.mem_cons_of_mem _ hq) h2
    have ih2 := ih (bt_insert tr p.1 p.2) (by rw [bt_insert_t]; exact ht)
      hins.2.2 hnd.2 hfresh2
    simp only [List.foldl_cons]
    refine ⟨ih2.1.trans (bt_insert_t _ _ _), ih2.2.1, ?_, ?_, ?_⟩
    · rw [ih2.2.2.1, hins.2.1, insertEntry_length p.1 p.2 _ hfr, List.length_cons]
      omega
    · intro q hq
      rcases List.mem_cons.1 hq with h2 | h2
      · subst h2
        have hq1 : q.1 ∉ ps.map Prod.fst := hnd.1
        rw [ih2.2.2.2.2 q.1 hq1, hins.2.1, entriesFind_insertEntry_self]
      · exact ih2.2.2.2.1 q h2
    · intro k hk
      rw [List.map_cons, List.mem_cons, not_or] at hk
      rw [ih2.2.2.2.2 k hk.2, hins.2.1,
        entriesFind_insertEntry_other p.1 k p.2 _ hk.1]


/-- Folding the dedup callback over an emission list: the `seen` bitmap ends
marking every in-bounds emitted key, a key reaches the user output iff it is
an in-bounds emitted key that was not yet seen, and when every already-output
key is marked the output keys stay duplicate-free. -/
theorem hc_range_cb_foldl (mk : BTKey) (L : List (BTKey × Option α))
    (seen : List BTKey) (out : List (BTKey × Option α)) :
    (∀ x, x ∈ (L.foldl (fun ctx e => hc_range_cb_hot mk e.1 e.2 ctx) (seen, out)).1 ↔
      x ∈ seen ∨ (x ∈ keysOf L ∧ 0 ≤ x ∧ x ≤ mk)) ∧
    (∀ x, x ∈ keysOf (L.foldl (fun ctx e => hc_range_cb_hot mk e.1 e.2 ctx) (seen, out)).2 ↔
      x ∈ keysOf out ∨ (x ∈ keysOf L ∧ 0 ≤ x ∧ x ≤ mk ∧ x ∉ seen)) ∧
    ((∀ x ∈ keysOf out, x ∈ seen) →
      (∀ x ∈ keysOf (L.foldl (fun ctx e => hc_range_cb_hot mk e.1 e.2 ctx) (seen, out)).2,
        x ∈ (L.foldl (fun ctx e => hc_range_cb_hot mk e.1 e.2 ctx) (seen, out)).1) ∧
      ((keysOf out).Nodup →
        (keysOf (L.foldl (fun ctx e => hc_range_cb_hot mk e.1 e.2 ctx) (seen, out)).2).Nodup)) := by
  induction L generalizing seen out with
  | nil =>
    refine ⟨fun x => ?_, fun x => ?_, fun hpre => ⟨fun x hx => hpre x hx, fun h => h⟩⟩
    · simp [keysOf]
    · simp [keysOf]
  | cons e L2 ih =>
    by_cases hoob : e.1 < 0 ∨ e.1 > mk
    · have hstep : hc_range_cb_hot mk e.1 e.2 (seen, out) = (seen, out) := by
        rw [hc_range_cb_hot, if_pos hoob]
      rw [List.foldl_cons, hstep]
      have := ih seen out
      refine ⟨fun x => ?_, fun x => ?_, this.2.2⟩
      · rw [(this.1 x), keysOf_cons, List.mem_cons]
        constructor
        · rintro (h | h)
          · exact Or.inl h
          · exact Or.inr ⟨Or.inr h.1, h.2⟩
        · rintro (h | ⟨h1 | h1, h2⟩)
          · exact Or.inl h
          · subst h1
            rcases hoob with h3 | h3
            · exact absurd h2.1 (not_le.2 h3)
            · exact absurd h2.2 (not_le.2 h3)
          · exact Or.inr ⟨h1, h2⟩
      · rw [(this.2.1 x), keysOf_cons, List.mem_cons]
        constructor
        · rintro (h | h)
          · exact Or.inl h
          · exact Or.inr ⟨Or.inr h.1, h.2⟩
        · rintro (h | ⟨h1 | h1, h2⟩)
          · exact Or.inl h
          · subst h1
            rcases hoob with h3 | h3
            · exact absurd h2.1 (not_le.2 h3)
            · exact absurd h2.2.1 (not_le.2 h3)
          · exact Or.inr ⟨h1, h2⟩
    · have hb : 0 ≤ e.1 ∧ e.1 ≤ mk := by
        rw [not_or, not_lt, not_lt] at hoob
        exact hoob
      by_cases hseen : e.1 ∈ seen
      · have hstep : hc_range_cb_hot mk e.1 e.2 (seen, out) = (seen, out) := by
          rw [hc_range_cb_hot, if_neg hoob, if_pos hseen]
        rw [List.foldl_cons, hstep]
        have := ih seen out
        refine ⟨fun x => ?_, fun x => ?_, this.2.2⟩
        · rw [(this.1 x), keysOf_cons, List.mem_cons]
          constructor
          · rintro (h | h)
            · exact Or.inl h
            · exact Or.inr ⟨Or.inr h.1, h.2⟩
          · rintro (h | ⟨h1 | h1, h2⟩)
            · exact Or.inl h
            · exact Or.inl (h1 ▸ hseen)
            · exact Or.inr ⟨h1, h2⟩
        · rw [(this.2.1 x), keysOf_cons, List.mem_cons]
          constructor
          · rintro (h | h)
            · exact Or.inl h
            · exact Or.inr ⟨Or.inr h.1, h.2⟩
          · rintro (h | ⟨h1 | h1, h2⟩)
            · exact Or.inl h
            · exact absurd (h1 ▸ hseen) h2.2.2
            · exact Or.inr ⟨h1, h2⟩
      · have hstep : hc_range_cb_hot mk e.1 e.2 (seen, out)
            = (e.1 :: seen, out ++ [e]) := by
          rw [hc_range_cb_hot, if_neg hoob, if_neg hseen]
        rw [List.foldl_cons, hstep]
        have := ih (e.1 :: seen) (out ++ [e])
        have hko : keysOf (out ++ [e]) = keysOf out ++ [e.1] := by
          rw [keysOf_append]
          rfl
        refine ⟨fun x => ?_, fun x => ?_, fun hpre => ?_⟩
        · rw [(this.1 x), keysOf_cons, List.mem_cons, List.mem_cons]
          constructor
          · rintro ((h | h) | h)
            · exact Or.inr ⟨Or.inl h, h ▸ hb⟩
            · exact Or.inl h
            · exact Or.inr ⟨Or.inr h.1, h.2⟩
          · rintro (h | ⟨h1 | h1, h2⟩)
            · exact Or.inl (Or.inr h)
            · exact Or.inl (Or.inl h1)
            · exact Or.inr ⟨h1, h2⟩
        · rw [(this.2.1 x), hko, keysOf_cons, List.mem_append, List.mem_cons]
          simp only [List.mem_singleton, List.not_mem_nil, or_false, List.mem_cons]
          constructor
          · rintro ((h | h) | ⟨h1, h2, h3, h4⟩)
            · exact Or.inl h
            · exact Or.inr ⟨Or.inl h, h ▸ ⟨hb.1, hb.2, hseen⟩⟩
            · refine Or.inr ⟨Or.inr h1, h2, h3, fun hx => h4 (Or.inr hx)⟩
          · rintro (h | ⟨h1 | h1, h2, h3, h4⟩)
            · exact Or.inl (Or.inl h)
            · exact Or.inl (Or.inr h1)
            · by_cases hx : x = e.1
              · exact Or.inl (Or.inr hx)
              · exact Or.inr ⟨h1, h2, h3, fun hc => hc.elim hx h4⟩
        · have hpre2 : ∀ x ∈ keysOf (out ++ [e]), x ∈ e.1 :: seen := by
            intro x hx
            rw [hko, List.mem_append, List.mem_singleton] at hx
            rcases hx with hx | hx
            · exact List.mem_cons_of_mem _ (hpre x hx)
            · exact hx ▸ List.mem_cons_self _ _
          refine ⟨(this.2.2 hpre2).1, fun hnd => (this.2.2 hpre2).2 ?_⟩
          rw [hko]
          have hne : e.1 ∉ keysOf out := fun hc => hseen (hpre _ hc)
          simp [List.nodup_append, hnd, hne]


theorem hc_range_cb_foldl_ctx (mk : BTKey) (L : List (BTKey × Option α))
    (ctx : List BTKey × List (BTKey × Option α)) :
    (∀ x, x ∈ (L.foldl (fun ctx e => hc_range_cb_hot mk e.1 e.2 ctx) ctx).1 ↔
      x ∈ ctx.1 ∨ (x ∈ keysOf L ∧ 0 ≤ x ∧ x ≤ mk)) ∧
    (∀ x, x ∈ keysOf (L.foldl (fun ctx e => hc_range_cb_hot mk e.1 e.2 ctx) ctx).2 ↔
      x ∈ keysOf ctx.2 ∨ (x ∈ keysOf L ∧ 0 ≤ x ∧ x ≤ mk ∧ x ∉ ctx.1)) ∧
    ((∀ x ∈ keysOf ctx.2, x ∈ ctx.1) →
      (∀ x ∈ keysOf (L.foldl (fun ctx e => hc_range_cb_hot mk e.1 e.2 ctx) ctx).2,
        x ∈ (L.foldl (fun ctx e => hc_range_cb_hot mk e.1 e.2 ctx) ctx).1) ∧
      ((keysOf ctx.2).Nodup →
        (keysOf (L.foldl (fun ctx e => hc_range_cb_hot mk e.1 e.2 ctx) ctx).2).Nodup)) := by
  obtain ⟨seen, out⟩ := ctx
  exact hc_range_cb_foldl mk L seen out

theorem hc_range_cb_cold_eq :
    (hc_range_cb_cold : BTKey → BTKey → Option α →
      List BTKey × List (BTKey × Option α) → List BTKey × List (BTKey × Option α))
    = hc_range_cb_hot := rfl

theorem keysOf_btEmits_iff (lo hi k : BTKey) (n : BTreeNode α) (hinv : btInv n) :
    k ∈ keysOf (btEmits lo hi n) ↔ k ∈ keysOf (flatten n) ∧ lo ≤ k ∧ k ≤ hi := by
  constructor
  · intro h
    rcases mem_keysOf.1 h with ⟨p, hp⟩
    have hs := btEmits_sound lo hi n hinv.1 _ hp
    have hb := btEmits_bounds lo hi n _ hp
    exact ⟨mem_keysOf.2 ⟨p, hs⟩, hb.1, hb.2⟩
  · rintro ⟨h1, h2, h3⟩
    exact btEmits_complete lo hi n hinv k h1 h2 h3

/-- The merged range result: duplicate-free keys, and exactly the in-bounds
keys of the union of the two trees that also lie in `[0, max_key]`. -/
theorem hc_range_search_dedup (idx : HCIndex α) (lo hi : BTKey)
    (hinvh : btInv idx.hot.root) (hinvc : btInv idx.cold.root)
    (hbnd : ∀ k, k ∈ keysOf (flatten idx.hot.root) ∨ k ∈ keysOf (flatten idx.cold.root) →
      0 ≤ k ∧ k ≤ idx.max_key) :
    (keysOf (hc_range_search idx lo hi).2).Nodup ∧
    (∀ k, k ∈ keysOf (hc_range_search idx lo hi).2 ↔
      ((k ∈ keysOf (flatten idx.hot.root) ∨ k ∈ keysOf (flatten idx.cold.root)) ∧
        lo ≤ k ∧ k ≤ hi)) := by
  simp only [hc_range_search, bt_range_search, hc_range_cb_cold_eq, bt_range_transport]
  have hA := hc_range_cb_foldl idx.max_key (btEmits lo hi idx.hot.root) [] []
  have hB := hc_range_cb_foldl_ctx idx.max_key (btEmits lo hi idx.cold.root)
    ((btEmits lo hi idx.hot.root).foldl
      (fun ctx e => hc_range_cb_hot idx.max_key e.1 e.2 ctx) ([], []))
  constructor
  · refine (hB.2.2 ?_).2 ?_
    · intro x hx
      rw [hA.2.1 x] at hx
      rw [hA.1 x]
      simp only [keysOf_nil, List.not_mem_nil, false_or] at hx ⊢
      exact ⟨hx.1, hx.2.1, hx.2.2.1⟩
    · refine (hA.2.2 ?_).2 ?_
      · intro x hx
        simp [keysOf] at hx
      · simp [keysOf]
  · intro k
    rw [hB.2.1 k, hA.2.1 k, hA.1 k]
    simp only [keysOf_nil, List.not_mem_nil, false_or]
    rw [keysOf_btEmits_iff lo hi k _ hinvh, keysOf_btEmits_iff lo hi k _ hinvc]
    constructor
    · rintro (⟨⟨h1, h2, h3⟩, -⟩ | ⟨⟨h1, h2, h3⟩, -, -, -⟩)
      · exact ⟨Or.inl h1, h2, h3⟩
      · exact ⟨Or.inr h1, h2, h3⟩
    · rintro ⟨h1 | h1, h2, h3⟩
      · have hb := hbnd k (Or.inl h1)
        exact Or.inl ⟨⟨h1, h2, h3⟩, hb.1, hb.2, not_false⟩
      · have hb := hbnd k (Or.inr h1)
        by_cases hh : k ∈ keysOf (flatten idx.hot.root)
        · exact Or.inl ⟨⟨hh, h2, h3⟩, hb.1, hb.2, not_false⟩
        · exact Or.inr ⟨⟨h1, h2, h3⟩, hb.1, hb.2, fun hc => hh hc.1.1⟩


/-! ### The claims -/

/-- C9: for `k < 0` or `k > max_key`, `hc_insert` reports the diagnostic and
has no other effect - both trees, the score array and every statistics
counter are unchanged; for in-range `k` it writes `bt_insert` into the cold
tree only, leaving hot, scores and statistics untouched. -/
theorem C9_insert_range_behaviour (idx : HCIndex α) (k : BTKey) (v : Option α) :
    ((k < 0 ∨ k > idx.max_key) → hc_insert idx k v = (idx, true)) ∧
    (0 ≤ k → k ≤ idx.max_key →
      (hc_insert idx k v).2 = false ∧
      (hc_insert idx k v).1.hot = idx.hot ∧
      (hc_insert idx k v).1.max_key = idx.max_key ∧
      (hc_insert idx k v).1.hit_score = idx.hit_score ∧
      (hc_insert idx k v).1.params = idx.params ∧
      (hc_insert idx k v).1.stats = idx.stats ∧
      (hc_insert idx k v).1.cold = bt_insert idx.cold k v) := by
  constructor
  · intro h
    rw [hc_insert, if_pos h]
  · intro h1 h2
    rw [hc_insert, if_neg (not_or.2 ⟨not_lt.2 h1, not_lt.2 h2⟩)]
    exact ⟨rfl, rfl, rfl, rfl, rfl, rfl, rfl⟩

theorem C9_insert_range_behaviour_witness :
    hc_insert (hc_create 5 2 ⟨9/10, 8, 1/10, true⟩ : HCIndex Nat) (-1) (some 3)
      = (hc_create 5 2 ⟨9/10, 8, 1/10, true⟩, true) ∧
    (hc_insert (hc_create 5 2 ⟨9/10, 8, 1/10, true⟩ : HCIndex Nat) 3 (some 4)).2 = false ∧
    (hc_insert (hc_create 5 2 ⟨9/10, 8, 1/10, true⟩ : HCIndex Nat) 3 (some 4)).1.cold
      = bt_insert (hc_create 5 2 ⟨9/10, 8, 1/10, true⟩ : HCIndex Nat).cold 3 (some 4) :=
  ⟨(C9_insert_range_behaviour (hc_create 5 2 ⟨9/10, 8, 1/10, true⟩) (-1) (some 3)).1
      (Or.inl (by norm_num)),
   ((C9_insert_range_behaviour (hc_create 5 2 ⟨9/10, 8, 1/10, true⟩) 3 (some 4)).2
      (by norm_num) (by norm_num [hc_create])).1,
   ((C9_insert_range_behaviour (hc_create 5 2 ⟨9/10, 8, 1/10, true⟩) 3 (some 4)).2
      (by norm_num) (by norm_num [hc_create])).2.2.2.2.2.2⟩

/-- C8: for an in-range key found in cold but not hot, the search writes
`score[k] := decay_alpha * score[k] + 1`, and when the new score reaches
`hot_threshold` in inclusive mode with the hot tree below the capacity test
of the code, the key is inserted into hot with its cold payload. -/
theorem C8_promotion_on_threshold (idx : HCIndex α) (k : BTKey)
    (hk0 : 0 ≤ k) (hk1 : k ≤ idx.max_key)
    (hhot : (bt_search idx.hot k).1 = none)
    (hcold : ((bt_search idx.cold k).1).isSome = true) :
    (hc_search idx k).1.hit_score k
      = idx.params.decay_alpha * idx.hit_score k + 1 ∧
    (idx.params.decay_alpha * idx.hit_score k + 1 ≥ idx.params.hot_threshold →
      idx.params.inclusive = true →
      ((bt_count_keys idx.hot : ℚ) <
        idx.params.max_hot_fraction * (((idx.max_key + 1).toNat : ℚ))) →
      (hc_search idx k).1.hot = bt_insert idx.hot k (bt_search idx.cold k).1) := by
  simp only [hc_search]
  rw [if_neg (by rw [hhot]; simp)]
  rw [if_pos hcold]
  rw [if_pos (⟨hk0, hk1⟩ : 0 ≤ k ∧ k ≤ idx.max_key)]
  by_cases hthr : idx.params.decay_alpha * idx.hit_score k + 1
      ≥ idx.params.hot_threshold
  · rw [if_pos hthr]
    constructor
    · rw [(maybe_promote_frame _ k).2.2.1]
      simp
    · intro _ hincl hcap
      simp only [maybe_promote]
      rw [if_neg (by rw [hincl]; simp)]
      rw [if_neg (not_le.2 hcap)]
      rw [if_neg (by rw [show (bt_search idx.hot k).1 = none from hhot]; simp)]
      rw [if_neg (by rw [show ((bt_search idx.cold k).1).isSome = true from hcold]; simp)]
  · rw [if_neg hthr]
    constructor
    · simp
    · intro hthr2 _ _
      exact absurd hthr2 hthr

/-- The nodes physically visited during one `hc_search` call, as the spec's
P8 counts them: the hot probe, plus on a hot miss the cold probe, plus -
when a cold hit's updated in-range score reaches the threshold so that
promotion is attempted - every node `maybe_promote` examines: its two full
`bt_count_keys` walks (over hot AND over cold, hctree.c:50-51), the two
searches whose local `BTStats` the C discards, and the `bt_insert` descent
when the promotion is carried out (see `maybe_promote_visits`).
`maybe_promote_visits` reads only fields (`hot`, `cold`, `max_key`,
`params`) that the search has not modified at the promotion call site, and
the threshold guard recomputes the new score from the pre-call `hit_score`
exactly as the code does, so both are evaluated on `idx` itself. This
definition is modelled on the specification's words; the code's own
accounting is `hc_search_stats`. -/
def hcSearchPhysVisits (idx : HCIndex α) (k : BTKey) : Nat :=
  let hotP := bt_search idx.hot k
  if hotP.1.isSome then hotP.2
  else
    let coldP := bt_search idx.cold k
    if coldP.1.isSome = true ∧ (0 ≤ k ∧ k ≤ idx.max_key) ∧
        idx.params.decay_alpha * idx.hit_score k + 1 ≥ idx.params.hot_threshold then
      hotP.2 + coldP.2 + maybe_promote_visits idx k
    else hotP.2 + coldP.2

/-- C7 (amended): the per-search delta of `hot_node_visits + cold_node_visits`
equals the visits of the hot probe plus, on a hot miss, the cold probe;
nodes examined while attempting promotion (the `bt_count_keys` walks over
both trees, the two probe searches and the promotion insert) are not
accounted. -/
theorem C7_visit_accounting (idx : HCIndex α) (k : BTKey) :
    (hc_search idx k).1.stats.hot_node_visits
      + (hc_search idx k).1.stats.cold_node_visits
      = idx.stats.hot_node_visits + idx.stats.cold_node_visits
        + (bt_search idx.hot k).2
        + (if ((bt_search idx.hot k).1).isSome then 0
           else (bt_search idx.cold k).2) := by
  have h := hc_search_stats idx k
  rw [h.2.1, h.2.2]
  by_cases hs : ((bt_search idx.hot k).1).isSome
  · rw [if_pos hs]
    omega
  · rw [if_neg hs]
    omega

/-- C10 (amended): a key stored in cold with the null payload behaves as
absent for point lookups - `hc_search` returns `NULL`, increments
`not_found` rather than a hit counter, and never promotes the key (hot is
unchanged). It is *not* indistinguishable at the public interface: a range
search still emits the key (see the counterexample). -/
theorem C10_null_payload_search (idx : HCIndex α) (k : BTKey)
    (hinv : btInv idx.cold.root)
    (hstored : entriesFind k (flatten idx.cold.root) = some none)
    (hhot : (bt_search idx.hot k).1 = none) :
    (hc_search idx k).2 = none ∧
    (hc_search idx k).1.stats.not_found = idx.stats.not_found + 1 ∧
    (hc_search idx k).1.stats.hot_hits = idx.stats.hot_hits ∧
    (hc_search idx k).1.stats.cold_hits = idx.stats.cold_hits ∧
    (hc_search idx k).1.hot = idx.hot := by
  have hc : (bt_search idx.cold k).1 = none := by
    rw [bt_search, bt_search_node_flatten k _ hinv, hstored]
    rfl
  simp only [hc_search]
  split
  · next h =>
    rw [hhot] at h
    simp at h
  split
  · next h =>
    rw [hc] at h
    simp at h
  · exact ⟨rfl, rfl, rfl, rfl, rfl⟩


/-- C4: building an index by any sequence of in-range inserts with pairwise
distinct keys, every inserted key searches to its inserted payload, any key
never inserted searches to the absent sentinel, and `count_keys` of the cold
tree equals the number of inserts. -/
theorem C4_round_trip (d : Nat) (hd : 1 ≤ d) (mk : BTKey) (p : HCParams)
    (ps : List (BTKey × Option α))
    (hnd : (ps.map Prod.fst).Nodup)
    (hrange : ∀ q ∈ ps, 0 ≤ q.1 ∧ q.1 ≤ mk) :
    (∀ q ∈ ps,
      (hc_search (hcRun (hc_create mk d p) (ps.map fun q => HCOp.ins q.1 q.2)) q.1).2
        = q.2) ∧
    (∀ k, k ∉ ps.map Prod.fst →
      (hc_search (hcRun (hc_create mk d p) (ps.map fun q => HCOp.ins q.1 q.2)) k).2
        = none) ∧
    bt_count_keys (hcRun (hc_create mk d p) (ps.map fun q => HCOp.ins q.1 q.2)).cold
      = ps.length := by
  have hin : ∀ q ∈ ps, ¬(q.1 < 0 ∨ q.1 > (hc_create mk d p : HCIndex α).max_key) := by
    intro q hq
    have h := hrange q hq
    exact not_or.2 ⟨not_lt.2 h.1, not_lt.2 h.2⟩
  rw [hcRun_ins_only (hc_create mk d p) ps hin]
  have hfold := bt_insert_foldl (bt_create d : BTree α) hd ps btInv_emptyLeaf hnd
    (by intro q hq; rw [show (bt_create d : BTree α).root = emptyLeaf from rfl,
          flatten_emptyLeaf]; simp [keysOf])
  have hhot : ∀ j : BTKey,
      (bt_search ({ hc_create mk d p with
        cold := ps.foldl (fun tr2 q => bt_insert tr2 q.1 q.2)
          (hc_create mk d p : HCIndex α).cold } : HCIndex α).hot j).1 = none := by
    intro j
    show (bt_search_node j (emptyLeaf : BTreeNode α)).1 = none
    rw [bt_search_node_emptyLeaf]
  refine ⟨?_, ?_, ?_⟩
  · intro q hq
    rw [hc_search_val _ _ (hhot q.1)]
    show (bt_search_node q.1
      (ps.foldl (fun tr2 q => bt_insert tr2 q.1 q.2) (bt_create d : BTree α)).root).1 = q.2
    rw [bt_search_node_flatten _ _ hfold.2.1, hfold.2.2.2.1 q hq]
    rfl
  · intro k hk
    rw [hc_search_val _ _ (hhot k)]
    show (bt_search_node k
      (ps.foldl (fun tr2 q => bt_insert tr2 q.1 q.2) (bt_create d : BTree α)).root).1 = none
    rw [bt_search_node_flatten _ _ hfold.2.1, hfold.2.2.2.2 k hk,
      show flatten (bt_create d : BTree α).root = [] from flatten_emptyLeaf]
    rfl
  · show bt_count_keys (ps.foldl (fun tr2 q => bt_insert tr2 q.1 q.2)
      (bt_create d : BTree α)) = ps.length
    rw [bt_count_keys, bt_count_keys_node_eq _ hfold.2.1.1, hfold.2.2.1,
      show flatten (bt_create d : BTree α).root = [] from flatten_emptyLeaf]
    simp

/-- C5: on an index whose keys all lie in `[0, max_key]`, the merged range
emission covers exactly the union of the two key sets restricted to
`[lo, hi]`, and no key is emitted twice. -/
theorem C5_range_union_dedup (idx : HCIndex α) (lo hi : BTKey)
    (hinvh : btInv idx.hot.root) (hinvc : btInv idx.cold.root)
    (hbnd : ∀ k, k ∈ keysOf (flatten idx.hot.root) ∨ k ∈ keysOf (flatten idx.cold.root) →
      0 ≤ k ∧ k ≤ idx.max_key) :
    (keysOf (hc_range_search idx lo hi).2).Nodup ∧
    (∀ k, k ∈ keysOf (hc_range_search idx lo hi).2 ↔
      ((k ∈ keysOf (flatten idx.hot.root) ∨ k ∈ keysOf (flatten idx.cold.root)) ∧
        lo ≤ k ∧ k ≤ hi)) :=
  hc_range_search_dedup idx lo hi hinvh hinvc hbnd

/-- C3 (amended): after any operation sequence from a fresh index, the hot
key count is bounded by the CEILING of `max_hot_fraction * (max_key + 1)`
(the floor bound of the claim fails; see the counterexample). -/
theorem C3_hot_capacity (d : Nat) (hd : 1 ≤ d) (mk : BTKey) (p : HCParams)
    (hfrac : 0 ≤ p.max_hot_fraction) (ops : List (HCOp α)) :
    (bt_count_keys (hcRun (hc_create mk d p) ops).hot : ℤ)
      ≤ ⌈p.max_hot_fraction * (((mk + 1).toNat : ℚ))⌉ :=
  (hcRun_HotOK d mk p hd hfrac ops).2.2.2.2.2


/-- C1: `insert` does not implement upsert. Re-inserting key 1 into the leaf
`[1,2,3]` (t = 3) shifts the larger entries right before the equality check;
the visible key list becomes `[1,2,2]`: key 3 is lost - searching it now
returns the absent sentinel although it was stored before the call - and key
2 is duplicated. -/
theorem C1_duplicate_insert_corrupts :
    keysOf (flatten (bt_insert (bt_insert (bt_insert (bt_insert
        (bt_create 3 : BTree Nat) 1 (some 1)) 2 (some 2)) 3 (some 3))
        1 (some 99)).root) = [1, 2, 2] ∧
    (bt_search (bt_insert (bt_insert (bt_insert (bt_insert
        (bt_create 3 : BTree Nat) 1 (some 1)) 2 (some 2)) 3 (some 3))
        1 (some 99)) 3).1 = none ∧
    (bt_search (bt_insert (bt_insert (bt_insert
        (bt_create 3 : BTree Nat) 1 (some 1)) 2 (some 2)) 3 (some 3)) 3).1
      = some 3 := by
  norm_num [hcRun, hcStep, hc_create, hc_insert, hc_search, maybe_promote,
    maybe_promote_visits, bt_create, emptyLeaf, bt_search, bt_search_node,
    lowerIdx, bt_count_keys, bt_count_keys_node, btNodes, bt_insert,
    bt_insert_nonfull, bt_leaf_insert, bt_split_child, splitY, splitZ,
    descendIdx, suffLen, BTreeNode.nkeys, BTreeNode.keys_mk,
    BTreeNode.values_mk, BTreeNode.children_mk, BTreeNode.leaf_mk,
    List.takeWhile, flatten, flattenAux, keysOf]

/-- C2: `range_search` can emit a stored pair twice. On the tree built by
inserting 1..4 (t = 2; root `[2]`, children `[1]` and `[3,4]`), the query
`[1,1]` meets `keys[0] = 2 > hi` after already descending into
`children[0]` under the `lo <= keys[0]` test, and the early-return branch
descends into `children[0]` a second time: `(1, v)` is emitted twice. -/
theorem C2_range_double_emission :
    (bt_range_search (bt_insert (bt_insert (bt_insert (bt_insert
        (bt_create 2 : BTree Nat) 1 (some 1)) 2 (some 2)) 3 (some 3)) 4 (some 4))
      1 1 (fun k v s => s ++ [(k, v)]) ([], 0)).1
      = [(1, some 1), (1, some 1)] := by
  have h3 : bt_insert (bt_insert (bt_insert
        (bt_create 2 : BTree Nat) 1 (some 1)) 2 (some 2)) 3 (some 3)
      = ⟨2, .mk [1, 2, 3] [some 1, some 2, some 3] [] true⟩ := by
    norm_num [bt_create, emptyLeaf, bt_insert, bt_insert_nonfull, bt_leaf_insert,
      descendIdx, suffLen, BTreeNode.nkeys, BTreeNode.keys_mk, BTreeNode.values_mk,
      BTreeNode.children_mk, BTreeNode.leaf_mk, List.takeWhile]
  rw [h3]
  have hsplit : bt_split_child 2
      (.mk [] [] [.mk [1, 2, 3] [some 1, some 2, some 3] [] true] false) 0
      = .mk [2] [some 2]
          [.mk [1] [some 1] [] true, .mk [3] [some 3] [] true] false := by
    norm_num [bt_split_child, splitY, splitZ, emptyLeaf, BTreeNode.keys_mk,
      BTreeNode.values_mk, BTreeNode.children_mk, BTreeNode.leaf_mk]
  have h4 : bt_insert (⟨2, .mk [1, 2, 3] [some 1, some 2, some 3] [] true⟩ : BTree Nat)
        4 (some 4)
      = ⟨2, .mk [2] [some 2]
          [.mk [1] [some 1] [] true, .mk [3, 4] [some 3, some 4] [] true] false⟩ := by
    simp only [bt_insert]
    split
    · next hfull =>
      rw [hsplit]
      rw [bt_insert_nonfull_child 2 4 (some 4) [2] [some 2]
        [.mk [1] [some 1] [] true, .mk [3] [some 3] [] true]
        (.mk [3] [some 3] [] true)
        (by norm_num [descendIdx, suffLen, List.takeWhile, List.get?])
        (by norm_num [BTreeNode.nkeys, BTreeNode.keys_mk])]
      norm_num [bt_insert_nonfull, bt_leaf_insert, descendIdx, suffLen,
        List.takeWhile, BTreeNode.nkeys, BTreeNode.keys_mk, BTreeNode.values_mk,
        BTreeNode.children_mk, BTreeNode.leaf_mk]
    · next hfull =>
      exact absurd (by norm_num [BTreeNode.nkeys, BTreeNode.keys_mk]) hfull
  rw [h4]
  norm_num [bt_range_search, bt_range_node, bt_range_go, BTreeNode.keys_mk,
    BTreeNode.values_mk, BTreeNode.children_mk, BTreeNode.leaf_mk]

/-- C6: inclusive containment fails. Insert 0,1,2, promote 2 by a search
(score reaches the threshold), then re-insert key 0: the duplicate-insert
bug of `bt_insert_nonfull` rewrites the cold leaf `[0,1,2]` to `[0,1,1]`,
so key 2 is in hot but no longer in cold. -/
theorem C6_hot_key_missing_from_cold :
    (2 : BTKey) ∈ keysOf (flatten (hcRun (hc_create 2 3 ⟨0, 1, 1, true⟩ : HCIndex Nat)
        [.ins 0 (some 10), .ins 1 (some 11), .ins 2 (some 12), .sea 2,
         .ins 0 (some 20)]).hot.root) ∧
    (2 : BTKey) ∉ keysOf (flatten (hcRun (hc_create 2 3 ⟨0, 1, 1, true⟩ : HCIndex Nat)
        [.ins 0 (some 10), .ins 1 (some 11), .ins 2 (some 12), .sea 2,
         .ins 0 (some 20)]).cold.root) := by
  norm_num [hcRun, hcStep, hc_create, hc_insert, hc_search, maybe_promote,
    maybe_promote_visits, bt_create, emptyLeaf, bt_search, bt_search_node,
    lowerIdx, bt_count_keys, bt_count_keys_node, btNodes, bt_insert,
    bt_insert_nonfull, bt_leaf_insert, bt_split_child, splitY, splitZ,
    descendIdx, suffLen, BTreeNode.nkeys, BTreeNode.keys_mk,
    BTreeNode.values_mk, BTreeNode.children_mk, BTreeNode.leaf_mk,
    List.takeWhile, flatten, flattenAux, keysOf]

/-- C3's floor bound fails: with `max_hot_fraction = 1/2` and `max_key = 0`
the capacity test compares against `1/2`, so a promotion from an empty hot
tree is allowed and the hot key count reaches `1 > floor(1/2 * 1) = 0`. -/
theorem C3_floor_counterexample :
    ⌊(⟨0, 1, 1/2, true⟩ : HCParams).max_hot_fraction * ((((0 : BTKey) + 1).toNat : ℚ))⌋
      < (bt_count_keys (hcRun (hc_create 0 2 ⟨0, 1, 1/2, true⟩ : HCIndex Nat)
          [.ins 0 (some 5), .sea 0]).hot : ℤ) := by
  norm_num [hcRun, hcStep, hc_create, hc_insert, hc_search, maybe_promote,
    maybe_promote_visits, bt_create, emptyLeaf, bt_search, bt_search_node,
    lowerIdx, bt_count_keys, bt_count_keys_node, btNodes, bt_insert,
    bt_insert_nonfull, bt_leaf_insert, bt_split_child, splitY, splitZ,
    descendIdx, suffLen, BTreeNode.nkeys, BTreeNode.keys_mk,
    BTreeNode.values_mk, BTreeNode.children_mk, BTreeNode.leaf_mk,
    List.takeWhile, flatten, flattenAux, keysOf]

/-- C7's claimed accounting fails on a search that attempts promotion. On a
one-key index with `max_hot_fraction = 0` (hot permanently at capacity) the
cold hit's score reaches the threshold, so `maybe_promote` runs: it walks
the whole hot tree and the whole cold tree through `bt_count_keys`
(hctree.c:50-51, one node each here) and then aborts at the capacity test -
no search or insert inside `maybe_promote` takes place, so the physical
census at this input is beyond dispute: hot probe (1) + cold probe (1) +
hot count walk (1) + cold count walk (1) = 4 nodes. The recorded delta
(from all-zero counters) is only the two probes: 2 ≠ 4. -/
theorem C7_counterexample :
    (hc_search (⟨⟨2, emptyLeaf⟩, ⟨2, .mk [1] [some 5] [] true⟩, 3, fun _ => 0,
        ⟨1/2, 1, 0, true⟩, ⟨0, 0, 0, 0, 0, 0⟩⟩ : HCIndex Nat) 1).1.stats.hot_node_visits
      + (hc_search (⟨⟨2, emptyLeaf⟩, ⟨2, .mk [1] [some 5] [] true⟩, 3, fun _ => 0,
        ⟨1/2, 1, 0, true⟩, ⟨0, 0, 0, 0, 0, 0⟩⟩ : HCIndex Nat) 1).1.stats.cold_node_visits
      = 2 ∧
    hcSearchPhysVisits (⟨⟨2, emptyLeaf⟩, ⟨2, .mk [1] [some 5] [] true⟩, 3, fun _ => 0,
        ⟨1/2, 1, 0, true⟩, ⟨0, 0, 0, 0, 0, 0⟩⟩ : HCIndex Nat) 1 = 4 ∧
    (hc_search (⟨⟨2, emptyLeaf⟩, ⟨2, .mk [1] [some 5] [] true⟩, 3, fun _ => 0,
        ⟨1/2, 1, 0, true⟩, ⟨0, 0, 0, 0, 0, 0⟩⟩ : HCIndex Nat) 1).1.stats.hot_node_visits
      + (hc_search (⟨⟨2, emptyLeaf⟩, ⟨2, .mk [1] [some 5] [] true⟩, 3, fun _ => 0,
        ⟨1/2, 1, 0, true⟩, ⟨0, 0, 0, 0, 0, 0⟩⟩ : HCIndex Nat) 1).1.stats.cold_node_visits
      ≠ hcSearchPhysVisits (⟨⟨2, emptyLeaf⟩, ⟨2, .mk [1] [some 5] [] true⟩, 3, fun _ => 0,
        ⟨1/2, 1, 0, true⟩, ⟨0, 0, 0, 0, 0, 0⟩⟩ : HCIndex Nat) 1 := by
  norm_num [hcSearchPhysVisits, hc_search, maybe_promote, maybe_promote_visits,
    emptyLeaf, bt_search, bt_search_node, lowerIdx, bt_count_keys,
    bt_count_keys_node, btNodes, BTreeNode.nkeys, BTreeNode.keys_mk,
    BTreeNode.values_mk, BTreeNode.children_mk, BTreeNode.leaf_mk]

/-- C10's indistinguishability fails at the range interface: after inserting
key 1 with the null payload, `range_search` emits `(1, NULL)`, while on the
untouched index it emits nothing. -/
theorem C10_range_distinguishes :
    (hc_range_search (hcRun (hc_create 3 2 ⟨9/10, 8, 1/10, true⟩ : HCIndex Nat)
        [.ins 1 none]) 0 3).2 = [(1, none)] ∧
    (hc_range_search (hc_create 3 2 ⟨9/10, 8, 1/10, true⟩ : HCIndex Nat) 0 3).2 = [] := by
  norm_num [hc_range_search, bt_range_search, bt_range_node, bt_range_go,
    hc_range_cb_hot, hc_range_cb_cold, hcRun, hcStep, hc_create, hc_insert, hc_search, maybe_promote,
    maybe_promote_visits, bt_create, emptyLeaf, bt_search, bt_search_node,
    lowerIdx, bt_count_keys, bt_count_keys_node, btNodes, bt_insert,
    bt_insert_nonfull, bt_leaf_insert, bt_split_child, splitY, splitZ,
    descendIdx, suffLen, BTreeNode.nkeys, BTreeNode.keys_mk,
    BTreeNode.values_mk, BTreeNode.children_mk, BTreeNode.leaf_mk,
    List.takeWhile, flatten, flattenAux, keysOf]


/-- A one-key index (key 1, payload 5, in cold only) used to exercise the
promotion path concretely. -/
def hcPromoteIdx : HCIndex Nat :=
  ⟨⟨2, emptyLeaf⟩, ⟨2, .mk [1] [some 5] [] true⟩, 3, fun _ => 0,
   ⟨1/2, 1, 1, true⟩, ⟨0, 0, 0, 0, 0, 0⟩⟩

theorem C8_promotion_on_threshold_witness :
    ((0 : BTKey) ≤ 1) ∧ ((1 : BTKey) ≤ hcPromoteIdx.max_key) ∧
    ((bt_search hcPromoteIdx.hot 1).1 = none) ∧
    (((bt_search hcPromoteIdx.cold 1).1).isSome = true) ∧
    ((hc_search hcPromoteIdx 1).1.hit_score 1
        = hcPromoteIdx.params.decay_alpha * hcPromoteIdx.hit_score 1 + 1 ∧
     (hcPromoteIdx.params.decay_alpha * hcPromoteIdx.hit_score 1 + 1
          ≥ hcPromoteIdx.params.hot_threshold →
      hcPromoteIdx.params.inclusive = true →
      ((bt_count_keys hcPromoteIdx.hot : ℚ) <
        hcPromoteIdx.params.max_hot_fraction *
          (((hcPromoteIdx.max_key + 1).toNat : ℚ))) →
      (hc_search hcPromoteIdx 1).1.hot
        = bt_insert hcPromoteIdx.hot 1 (bt_search hcPromoteIdx.cold 1).1)) :=
  ⟨by norm_num,
   by norm_num [hcPromoteIdx],
   by show (bt_search_node (1 : BTKey) (emptyLeaf : BTreeNode Nat)).1 = none
      rw [bt_search_node_emptyLeaf],
   by norm_num [hcPromoteIdx, bt_search, bt_search_node, lowerIdx,
        BTreeNode.keys_mk, BTreeNode.values_mk, BTreeNode.leaf_mk],
   C8_promotion_on_threshold hcPromoteIdx 1 (by norm_num)
     (by norm_num [hcPromoteIdx])
     (by show (bt_search_node (1 : BTKey) (emptyLeaf : BTreeNode Nat)).1 = none
         rw [bt_search_node_emptyLeaf])
     (by norm_num [hcPromoteIdx, bt_search, bt_search_node, lowerIdx,
          BTreeNode.keys_mk, BTreeNode.values_mk, BTreeNode.leaf_mk])⟩

/-- A one-key index whose single cold entry has the NULL payload. -/
def hcNullIdx : HCIndex Nat :=
  ⟨⟨2, emptyLeaf⟩, ⟨2, .mk [1] [none] [] true⟩, 3, fun _ => 0,
   ⟨9/10, 8, 1/10, true⟩, ⟨0, 0, 0, 0, 0, 0⟩⟩

theorem C10_null_payload_search_witness :
    btInv hcNullIdx.cold.root ∧
    entriesFind 1 (flatten hcNullIdx.cold.root) = some none ∧
    (bt_search hcNullIdx.hot 1).1 = none ∧
    ((hc_search hcNullIdx 1).2 = none ∧
     (hc_search hcNullIdx 1).1.stats.not_found = hcNullIdx.stats.not_found + 1 ∧
     (hc_search hcNullIdx 1).1.stats.hot_hits = hcNullIdx.stats.hot_hits ∧
     (hc_search hcNullIdx 1).1.stats.cold_hits = hcNullIdx.stats.cold_hits ∧
     (hc_search hcNullIdx 1).1.hot = hcNullIdx.hot) :=
  ⟨⟨by rw [show hcNullIdx.cold.root = BTreeNode.mk [1] [none] [] true from rfl, shapeB]
       rfl,
    by rw [show hcNullIdx.cold.root = BTreeNode.mk [1] [none] [] true from rfl, flatten]
       simp [sortedKeys, keysOf]⟩,
   by rw [show hcNullIdx.cold.root = BTreeNode.mk [1] [none] [] true from rfl, flatten]
      norm_num [entriesFind],
   by show (bt_search_node (1 : BTKey) (emptyLeaf : BTreeNode Nat)).1 = none
      rw [bt_search_node_emptyLeaf],
   C10_null_payload_search hcNullIdx 1
     ⟨by rw [show hcNullIdx.cold.root = BTreeNode.mk [1] [none] [] true from rfl, shapeB]
         rfl,
      by rw [show hcNullIdx.cold.root = BTreeNode.mk [1] [none] [] true from rfl, flatten]
         simp [sortedKeys, keysOf]⟩
     (by rw [show hcNullIdx.cold.root = BTreeNode.mk [1] [none] [] true from rfl, flatten]
         norm_num [entriesFind])
     (by show (bt_search_node (1 : BTKey) (emptyLeaf : BTreeNode Nat)).1 = none
         rw [bt_search_node_emptyLeaf])⟩

theorem C3_hot_capacity_witness :
    (1 ≤ 2) ∧ (0 ≤ (⟨0, 1, 1/2, true⟩ : HCParams).max_hot_fraction) ∧
    ((bt_count_keys (hcRun (hc_create 0 2 ⟨0, 1, 1/2, true⟩ : HCIndex Nat)
        [.ins 0 (some 5), .sea 0]).hot : ℤ)
      ≤ ⌈(⟨0, 1, 1/2, true⟩ : HCParams).max_hot_fraction * ((((0 : BTKey) + 1).toNat : ℚ))⌉) :=
  ⟨by norm_num, by norm_num,
   C3_hot_capacity 2 (by norm_num) 0 ⟨0, 1, 1/2, true⟩ (by norm_num)
     [.ins 0 (some 5), .sea 0]⟩

theorem C4_round_trip_witness :
    ((List.map Prod.fst [((0 : BTKey), some (1 : Nat)), (2, some 2)]).Nodup) ∧
    (∀ q ∈ [((0 : BTKey), some (1 : Nat)), (2, some 2)], 0 ≤ q.1 ∧ q.1 ≤ (5 : BTKey)) ∧
    ((∀ q ∈ [((0 : BTKey), some (1 : Nat)), (2, some 2)],
      (hc_search (hcRun (hc_create 5 2 ⟨9/10, 8, 1/10, true⟩)
        ([((0 : BTKey), some (1 : Nat)), (2, some 2)].map fun q => HCOp.ins q.1 q.2)) q.1).2
        = q.2) ∧
    (∀ k, k ∉ [((0 : BTKey), some (1 : Nat)), (2, some 2)].map Prod.fst →
      (hc_search (hcRun (hc_create 5 2 ⟨9/10, 8, 1/10, true⟩)
        ([((0 : BTKey), some (1 : Nat)), (2, some 2)].map fun q => HCOp.ins q.1 q.2)) k).2
        = none) ∧
    bt_count_keys (hcRun (hc_create 5 2 ⟨9/10, 8, 1/10, true⟩)
        ([((0 : BTKey), some (1 : Nat)), (2, some 2)].map fun q => HCOp.ins q.1 q.2)).cold
      = [((0 : BTKey), some (1 : Nat)), (2, some 2)].length) :=
  ⟨by decide, by decide,
   C4_round_trip 2 (by norm_num) 5 ⟨9/10, 8, 1/10, true⟩
     [((0 : BTKey), some (1 : Nat)), (2, some 2)] (by decide) (by decide)⟩

/-- A two-tier index with hot empty and one cold key, used to instantiate the
range-dedup theorem. -/
def hcRangeIdx : HCIndex Nat :=
  ⟨⟨2, emptyLeaf⟩, ⟨2, .mk [1] [some 10] [] true⟩, 5, fun _ => 0,
   ⟨9/10, 8, 1/10, true⟩, ⟨0, 0, 0, 0, 0, 0⟩⟩

theorem C5_range_union_dedup_witness :
    btInv hcRangeIdx.hot.root ∧ btInv hcRangeIdx.cold.root ∧
    (∀ k, k ∈ keysOf (flatten hcRangeIdx.hot.root) ∨
        k ∈ keysOf (flatten hcRangeIdx.cold.root) → 0 ≤ k ∧ k ≤ hcRangeIdx.max_key) ∧
    ((keysOf (hc_range_search hcRangeIdx 0 5).2).Nodup ∧
     (∀ k, k ∈ keysOf (hc_range_search hcRangeIdx 0 5).2 ↔
      ((k ∈ keysOf (flatten hcRangeIdx.hot.root) ∨
        k ∈ keysOf (flatten hcRangeIdx.cold.root)) ∧ 0 ≤ k ∧ k ≤ 5))) :=
  ⟨btInv_emptyLeaf,
   ⟨by rw [show hcRangeIdx.cold.root = BTreeNode.mk [1] [some 10] [] true from rfl, shapeB]
       rfl,
    by rw [show hcRangeIdx.cold.root = BTreeNode.mk [1] [some 10] [] true from rfl, flatten]
       simp [sortedKeys, keysOf]⟩,
   by intro k hk
      rcases hk with h | h
      · rw [show hcRangeIdx.hot.root = emptyLeaf from rfl, flatten_emptyLeaf] at h
        simp [keysOf] at h
      · rw [show hcRangeIdx.cold.root = BTreeNode.mk [1] [some 10] [] true from rfl,
          flatten] at h
        simp [keysOf] at h
        subst h
        norm_num [hcRangeIdx],
   C5_range_union_dedup hcRangeIdx 0 5 btInv_emptyLeaf
     ⟨by rw [show hcRangeIdx.cold.root = BTreeNode.mk [1] [some 10] [] true from rfl, shapeB]
         rfl,
      by rw [show hcRangeIdx.cold.root = BTreeNode.mk [1] [some 10] [] true from rfl, flatten]
         simp [sortedKeys, keysOf]⟩
     (by intro k hk
         rcases hk with h | h
         · rw [show hcRangeIdx.hot.root = emptyLeaf from rfl, flatten_emptyLeaf] at h
           simp [keysOf] at h
         · rw [show hcRangeIdx.cold.root = BTreeNode.mk [1] [some 10] [] true from rfl,
             flatten] at h
           simp [keysOf] at h
           subst h
           norm_num [hcRangeIdx])⟩

end HotCold
